import Mathlib

set_option maxHeartbeats 4000000
set_option maxRecDepth 10000

/-!
Verification of the blitzbasic.com lexers (`pygments/lexers/misc/blitz.py`).

The repository data is the three static rule tables `BlitzMaxLexer.tokens`,
`BlitzBasicLexer.tokens` and `MonkeyLexer.tokens`, translated rule by rule
below.  The matching engine (`RegexLexer.get_tokens_unprocessed` together with
the `bygroups`, `default` and `words` helpers of `pygments/lexer.py`) is not
part of the sources given, so it is modelled from the specification, §4.1:
rules of the state on top of the stack are tried in declaration order, each
anchored at the current offset; the first match wins, its tokens are emitted
(one token for the whole match, or one per non-empty capture group for
`bygroups` rules), its state transition is applied, and the offset advances by
the length of the match; if no rule matches, a one-character fallback token of
an error kind is emitted and the offset advances by one; a pop on a stack of
depth 1 is absorbed; the run stops when the offset reaches the end of input.

Regular expressions are embedded as an explicit syntax tree with the
backtracking semantics of Python's `re` module: ordered alternation, greedy
and lazy repetition, numbered capture groups (0-based here, Python's group 1
is index 0), word boundaries, multiline `^`, and negative lookahead.
Case-insensitivity (`re.IGNORECASE` or an inline `(?i)`) is baked into the
character predicates of each rule when the table is built, and recorded in the
rule's `ci` field.
-/

/-- Token kinds: the leaves of pygments' token hierarchy used by the three
blitz lexers, plus the fallback `error` kind of the engine. -/
inductive TokenKind where
  | text
  | comment
  | commentSingle
  | commentMultiline
  | commentPreproc
  | stringDouble
  | stringEscape
  | numberFloat
  | numberInteger
  | numberHex
  | numberBin
  | operator
  | operatorWord
  | punctuation
  | nameLabel
  | nameClass
  | nameVariable
  | nameFunction
  | nameException
  | nameConstant
  | nameNamespace
  | nameBuiltin
  | nameBuiltinPseudo
  | keywordType
  | keywordConstant
  | keywordDeclaration
  | keywordReserved
  | keywordNamespace
  | error
  deriving DecidableEq, Repr

/-- A token: start offset, kind, and the matched text. -/
structure Token where
  offset : Nat
  kind : TokenKind
  text : List Char
  deriving DecidableEq, Repr

/-- Regular expressions, as compiled for one rule of a lexer table.
Character classes and literals are a single `cls` constructor carrying the
character predicate (case folding is baked in at construction).  `grp` is a
numbered capture group (0-based).  `star` is greedy when its flag is `true`,
lazy (`*?`) otherwise.  `lookNeg` is negative lookahead `(?!...)`, `bol` is
multiline `^`, `wordB` is `\b`. -/
inductive Regex where
  | eps
  | cls (p : Char → Bool)
  | seq (r1 r2 : Regex)
  | alt (r1 r2 : Regex)
  | star (greedy : Bool) (r : Regex)
  | grp (idx : Nat) (r : Regex)
  | lookNeg (r : Regex)
  | bol
  | wordB

/-- Number of capture groups of a pattern. -/
def groupCount : Regex → Nat
  | .eps => 0
  | .cls _ => 0
  | .seq r1 r2 => groupCount r1 + groupCount r2
  | .alt r1 r2 => groupCount r1 + groupCount r2
  | .star _ r => groupCount r
  | .grp _ r => groupCount r + 1
  | .lookNeg r => groupCount r
  | .bol => 0
  | .wordB => 0

/-- Syntactic nullability: `true` when the pattern may match the empty string.
(`false` guarantees every match consumes at least one character.) -/
def nullable : Regex → Bool
  | .eps => true
  | .cls _ => false
  | .seq r1 r2 => nullable r1 && nullable r2
  | .alt r1 r2 => nullable r1 || nullable r2
  | .star _ _ => true
  | .grp _ r => nullable r
  | .lookNeg _ => true
  | .bol => true
  | .wordB => true

/-- Syntactic zero-width check: `true` when every match of the pattern is
empty (used for the `default` pseudo-rules, whose pattern is `eps`). -/
def zeroWidth : Regex → Bool
  | .eps => true
  | .cls _ => false
  | .seq r1 r2 => zeroWidth r1 && zeroWidth r2
  | .alt r1 r2 => zeroWidth r1 && zeroWidth r2
  | .star _ _ => false
  | .grp _ r => zeroWidth r
  | .lookNeg _ => true
  | .bol => true
  | .wordB => true

/-- `covered r lo = true` means: the capture groups of `r` are numbered
`lo, lo+1, ...` from left to right, none of them nested, every group body is
group-free, and every consuming atom of `r` lies inside a capture group.  For
such a pattern the participating groups of any match tile the matched span,
which is what pygments' `bygroups` emission relies on. -/
def covered : Regex → Nat → Bool
  | .eps, _ => true
  | .cls _, _ => false
  | .seq r1 r2, lo => covered r1 lo && covered r2 (lo + groupCount r1)
  | .alt r1 r2, lo => covered r1 lo && covered r2 (lo + groupCount r1)
  | .star _ _, _ => false
  | .grp i r, lo => decide (i = lo) && decide (groupCount r = 0)
  | .lookNeg r, _ => decide (groupCount r = 0)
  | .bol, _ => true
  | .wordB, _ => true

/-- Capture slots: slot `i` holds the span of group `i` (Python group `i+1`),
or `none` when the group did not participate. -/
abbrev Caps := List (Option (Nat × Nat))

/-- `\w` of the patterns (ASCII word characters, as used by these lexers). -/
def isWordChar (c : Char) : Bool := c.isAlphanum || c = '_'

/-- Is offset `pos` at a word boundary of `s`? -/
def atWordBoundary (s : List Char) (pos : Nat) : Bool :=
  let before :=
    match pos with
    | 0 => false
    | p + 1 =>
      match s.get? p with
      | some c => isWordChar c
      | none => false
  let after :=
    match s.get? pos with
    | some c => isWordChar c
    | none => false
  before != after

/-- Is offset `pos` at the start of a line of `s` (multiline `^`)? -/
def atLineStart (s : List Char) (pos : Nat) : Bool :=
  match pos with
  | 0 => true
  | p + 1 => s.get? p == some '\n'

/-- Backtracking loop for `star`: all ways to run zero or more iterations of
the body (whose match function is `m`), each iteration required to consume at
least one character, results in the backtracking priority order of Python's
`re` (iterate first when greedy, exit first when lazy).  `f` bounds the
number of iterations; the callers pass `s.length + 1`, which is never
exhausted since every iteration consumes. -/
def mstarAux (m : Nat → Caps → List (Nat × Caps)) (greedy : Bool) :
    Nat → Nat → Caps → List (Nat × Caps)
  | 0, pos, caps => [(pos, caps)]
  | f + 1, pos, caps =>
    let cont := ((m pos caps).filter (fun q => pos < q.1)).flatMap
        (fun q => mstarAux m greedy f q.1 q.2)
    if greedy then cont ++ [(pos, caps)] else (pos, caps) :: cont

/-- The backtracking matcher: all matches of `r` in `s` anchored at `pos`,
as pairs (end offset, updated captures), in Python `re` priority order; a
compiled pattern's `.match` is the head of this list. -/
def mtch (s : List Char) : Regex → Nat → Caps → List (Nat × Caps)
  | .eps, pos, caps => [(pos, caps)]
  | .cls p, pos, caps =>
    match s.get? pos with
    | some c => if p c then [(pos + 1, caps)] else []
    | none => []
  | .seq r1 r2, pos, caps =>
    (mtch s r1 pos caps).flatMap (fun q => mtch s r2 q.1 q.2)
  | .alt r1 r2, pos, caps => mtch s r1 pos caps ++ mtch s r2 pos caps
  | .star g r, pos, caps => mstarAux (mtch s r) g (s.length + 1) pos caps
  | .grp i r, pos, caps =>
    (mtch s r pos caps).map (fun q => (q.1, q.2.set i (some (pos, q.1))))
  | .lookNeg r, pos, caps =>
    if (mtch s r pos caps).isEmpty then [(pos, caps)] else []
  | .bol, pos, caps => if atLineStart s pos then [(pos, caps)] else []
  | .wordB, pos, caps => if atWordBoundary s pos then [(pos, caps)] else []

/-- Rule action: one kind for the whole match, or `bygroups`-style one kind
per capture group. -/
inductive LexAction where
  | tok (k : TokenKind)
  | byGroups (ks : List TokenKind)
  deriving DecidableEq

/-- State-stack transition of a rule (§3 `StateOp`): stay, push a named
state, `#push` (duplicate the top), or `#pop`. -/
inductive StateOp where
  | stay
  | push (name : String)
  | pushTop
  | pop
  deriving DecidableEq

/-- One rule of a lexer table: compiled pattern, the case-insensitivity flag
it was compiled with (recorded; the folding itself is baked into `pat`), its
action (`none` for a `default` pseudo-rule, which emits nothing), and its
state transition. -/
structure Rule where
  pat : Regex
  ci : Bool
  act : Option LexAction
  op : StateOp

/-- Anchored match of one rule: the highest-priority result of the
backtracking matcher, starting from fresh (all-`none`) captures. -/
def ruleMatch (s : List Char) (r : Rule) (pos : Nat) : Option (Nat × Caps) :=
  (mtch s r.pat pos (List.replicate (groupCount r.pat) none)).head?

/-- First rule of the list (declaration order) that matches at `pos`. -/
def firstMatch (s : List Char) (rs : List Rule) (pos : Nat) :
    Option (Rule × Nat × Caps) :=
  match rs with
  | [] => none
  | r :: rest =>
    match ruleMatch s r pos with
    | some (e, caps) => some (r, e, caps)
    | none => firstMatch s rest pos

/-- The substring of `s` from offset `a` (inclusive) to `b` (exclusive). -/
def sliceOf (s : List Char) (a b : Nat) : List Char := (s.drop a).take (b - a)

/-- `bygroups` emission: one token per participating, non-empty capture
group, in group order, the kind taken positionally. -/
def emitGroups (s : List Char) (ks : List TokenKind) (caps : Caps) :
    List Token :=
  (ks.zip caps).filterMap fun kc =>
    match kc.2 with
    | some (a, b) => if a < b then some ⟨a, kc.1, sliceOf s a b⟩ else none
    | none => none

/-- Tokens emitted by a rule whose match spans `[pos, e)`. -/
def emitAct (s : List Char) (pos e : Nat) (caps : Caps) :
    Option LexAction → List Token
  | none => []
  | some (.tok k) => [⟨pos, k, sliceOf s pos e⟩]
  | some (.byGroups ks) => emitGroups s ks caps

/-- Apply a state transition to the stack (top at the head).  A pop on a
stack of depth 1 is absorbed as a no-op (§3: the root state is never popped
away; §8: excess pops are absorbed without error). -/
def applyOp : StateOp → List String → List String
  | .stay, st => st
  | .push n, st => n :: st
  | .pushTop, st => st.headD "root" :: st
  | .pop, st =>
    match st with
    | [] => []
    | [x] => [x]
    | _ :: rest => rest

/-- Current state: top of the stack. -/
def topState (stack : List String) : String := stack.headD "root"

/-- A lexer table: association list from state name to its ordered rules. -/
abbrev Table := List (String × List Rule)

/-- Look a state up in a table (unknown states have no rules). -/
def tableGet (tbl : Table) (n : String) : List Rule :=
  (((tbl.find? (fun p => p.1 == n)).map (fun p => p.2))).getD []

/-- One step of the engine at `pos` (assumed `< s.length`): the first
matching rule of the current state emits its tokens, advances the offset to
the match end and applies its transition; if no rule matches, one fallback
`error` token of one character is emitted and the offset advances by one
(§4.1 step 4). -/
def step (tbl : Table) (s : List Char) (pos : Nat) (stack : List String) :
    List Token × Nat × List String :=
  match firstMatch s (tableGet tbl (topState stack)) pos with
  | some (r, e, caps) => (emitAct s pos e caps r.act, e, applyOp r.op stack)
  | none => ([⟨pos, .error, [s.getD pos ' ']⟩], pos + 1, stack)

/-- The engine loop: iterate `step` until the offset reaches the end of the
input (§4.1 step 6).  Returns the emitted tokens and the trace of state
stacks (the stack before each step, and the final stack).  `f` is fuel; the
wrappers below pass `2 * s.length + 2`, which lemma `runAux_tile` proves
sufficient for the three tables of this file. -/
def runAux (tbl : Table) (s : List Char) :
    Nat → Nat → List String → List Token × List (List String)
  | 0, _, stack => ([], [stack])
  | f + 1, pos, stack =>
    if pos < s.length then
      let st := step tbl s pos stack
      let rest := runAux tbl s f st.2.1 st.2.2
      (st.1 ++ rest.1, stack :: rest.2)
    else ([], [stack])

/-- Tokenize `s` with table `tbl` from the given initial stack. -/
def tokenizeFrom (tbl : Table) (s : List Char) (stack : List String) :
    List Token :=
  (runAux tbl s (2 * s.length + 2) 0 stack).1

/-- Tokenize `s` with table `tbl`, starting from the stack `[root]`. -/
def tokenize (tbl : Table) (s : List Char) : List Token :=
  tokenizeFrom tbl s ["root"]

/-- All state stacks visited while tokenizing `s` from the given initial
stack (initial stack included). -/
def stackTraceFrom (tbl : Table) (s : List Char) (stack : List String) :
    List (List String) :=
  (runAux tbl s (2 * s.length + 2) 0 stack).2

/-- All state stacks visited while tokenizing `s` (initial stack included). -/
def stackTrace (tbl : Table) (s : List Char) : List (List String) :=
  (runAux tbl s (2 * s.length + 2) 0 ["root"]).2

/-- Concatenation of the texts of a token list. -/
def tokensText (toks : List Token) : List Char := (toks.map Token.text).flatten

/-- `tile s toks pos e`: the tokens of `toks`, in order, exactly cover the
span `[pos, e)` of `s`: each token is non-empty, starts where the previous
one ended (the first at `pos`, the last ending at `e`), and its text is the
corresponding substring of `s`.  This is the "strictly increasing,
non-overlapping, contiguous" shape of §3. -/
def tile (s : List Char) : List Token → Nat → Nat → Prop
  | [], pos, e => pos = e
  | t :: rest, pos, e =>
    t.offset = pos ∧ 0 < t.text.length ∧
      t.text = sliceOf s pos (pos + t.text.length) ∧
      tile s rest (pos + t.text.length) e

/-- The window of `n` capture slots starting at slot `lo`. -/
def seg (caps : Caps) (lo n : Nat) : Caps := (caps.drop lo).take n

/-- `spansTile caps pos e`: the participating spans among the slots of
`caps`, in slot order, chain exactly from `pos` to `e` (each span starts
where the previous one ended; non-participating slots are skipped). -/
def spansTile : Caps → Nat → Nat → Prop
  | [], pos, e => pos = e
  | none :: rest, pos, e => spansTile rest pos e
  | some (a, b) :: rest, pos, e => a = pos ∧ pos ≤ b ∧ spansTile rest b e

/-- `zwAt r c = true`: every match of `r` anchored at a position holding the
character `c` is zero-width (in particular, a pattern that cannot match at
all there satisfies this vacuously). -/
def zwAt : Regex → Char → Bool
  | .eps, _ => true
  | .cls p, c => !(p c)
  | .seq r1 r2, c => zwAt r1 c && zwAt r2 c
  | .alt r1 r2, c => zwAt r1 c && zwAt r2 c
  | .star _ r, c => zwAt r c
  | .grp _ r, c => zwAt r c
  | .lookNeg _, _ => true
  | .bol, _ => true
  | .wordB, _ => true

/-- `noMatch r c = true`: `r` has no match at all anchored at a position
holding the character `c` (a syntactic sufficient condition, used to show
that the earlier rules of a state do not fire). -/
def noMatch : Regex → Char → Bool
  | .eps, _ => false
  | .cls p, c => !(p c)
  | .seq r1 r2, c => noMatch r1 c || (zwAt r1 c && noMatch r2 c)
  | .alt r1 r2, c => noMatch r1 c && noMatch r2 c
  | .star _ _, _ => false
  | .grp _ r, c => noMatch r c
  | .lookNeg _, _ => false
  | .bol, _ => false
  | .wordB, _ => false

/-! ### Pattern-building helpers (the compilation of the rule regexes) -/

/-- Sequence of patterns (empty sequence is `eps`). -/
def rseqs (l : List Regex) : Regex := l.foldr Regex.seq Regex.eps

/-- Ordered alternation of patterns (an empty alternation never matches). -/
def ralts : List Regex → Regex
  | [] => Regex.cls (fun _ => false)
  | [r] => r
  | r :: rest => Regex.alt r (ralts rest)

/-- Greedy option `r?`. -/
def ropt (r : Regex) : Regex := Regex.alt r Regex.eps

/-- Greedy star `r*`. -/
def rstar (r : Regex) : Regex := Regex.star true r

/-- Lazy star `r*?`. -/
def rlstar (r : Regex) : Regex := Regex.star false r

/-- Greedy plus `r+`. -/
def rplus (r : Regex) : Regex := Regex.seq r (Regex.star true r)

/-- A literal character, case-folded when `ci` is set. -/
def rchr (ci : Bool) (c : Char) : Regex :=
  Regex.cls (fun d => d = c || (ci && d.toLower = c.toLower))

/-- A literal word, character by character. -/
def rstrg (ci : Bool) (w : String) : Regex := rseqs (w.toList.map (rchr ci))

/-- Ordered alternation of literal words (pygments' `words` helper without
its affixes; `\b` prefixes/suffixes are added at the use sites). -/
def rwords (ci : Bool) (ws : List String) : Regex := ralts (ws.map (rstrg ci))

/-- A character class given by a predicate, case-folded when `ci` is set
(under `re.IGNORECASE`, `[a-z]` also matches the uppercase letters). -/
def rcls (ci : Bool) (p : Char → Bool) : Regex :=
  Regex.cls (fun d => p d || (ci && (p d.toLower || p d.toUpper)))

/-- `[ \t]` -/
def spTab (c : Char) : Bool := c = ' ' || c = '\t'

/-- `\s` of Python `re`. -/
def pySpace (c : Char) : Bool :=
  c = ' ' || c = '\t' || c = '\n' || c = '\r' || c = '\x0b' || c = '\x0c'

/-- `[0-9]` -/
def digitP (c : Char) : Bool := '0' ≤ c && c ≤ '9'

/-- `[ \t]` as a pattern. -/
def cSpTab : Regex := Regex.cls spTab

/-- `\s` as a pattern. -/
def cSpace : Regex := Regex.cls pySpace

/-- `.` (any character but a newline; none of the tables sets `re.DOTALL`). -/
def cDot : Regex := Regex.cls (fun c => !(c == '\n'))

/-- `[0-9]` as a pattern. -/
def cDigit : Regex := Regex.cls digitP

/-- `\w` as a pattern. -/
def cWord : Regex := Regex.cls isWordChar

/-! ### BlitzMaxLexer (`flags = re.MULTILINE | re.IGNORECASE`) -/

/-- `bmax_name = [a-z_]\w*` (under IGNORECASE). -/
def bmax_name : Regex :=
  Regex.seq (rcls true (fun c => ('a' ≤ c && c ≤ 'z') || c = '_')) (rstar cWord)

/-- `bmax_sktypes = @{1,2}|[!#$%]` -/
def bmax_sktypes : Regex :=
  Regex.alt (Regex.seq (rchr false '@') (ropt (rchr false '@')))
    (Regex.cls (fun c => c = '!' || c = '#' || c = '$' || c = '%'))

/-- `bmax_lktypes = \b(Int|Byte|Short|Float|Double|Long)\b` without its
outer `\b`s and group — the word alternation only (the group and `\b`s are
placed at the use site inside `bmax_var`, matching the interpolation). -/
def bmax_lkwords : Regex :=
  rwords true ["Int", "Byte", "Short", "Float", "Double", "Long"]

/-- Alternative A of `bmax_var`: `([ \t]*)(@{1,2}|[!#$%])`, groups 1,2. -/
def bmax_varA : Regex :=
  Regex.seq (Regex.grp 1 (rstar cSpTab)) (Regex.grp 2 bmax_sktypes)

/-- Alternative B of `bmax_var`:
`([ \t]*:[ \t]*\b(?:Shl|Shr|Sar|Mod)\b)`, group 3. -/
def bmax_varB : Regex :=
  Regex.grp 3 (rseqs [rstar cSpTab, rchr false ':', rstar cSpTab,
    Regex.wordB, rwords true ["Shl", "Shr", "Sar", "Mod"], Regex.wordB])

/-- Alternative C of `bmax_var`:
`([ \t]*)(:)([ \t]*)(?:\b(Int|Byte|Short|Float|Double|Long)\b|([a-z_]\w*))`,
groups 4-8. -/
def bmax_varC : Regex :=
  rseqs [Regex.grp 4 (rstar cSpTab), Regex.grp 5 (rchr false ':'),
    Regex.grp 6 (rstar cSpTab),
    Regex.alt (rseqs [Regex.wordB, Regex.grp 7 bmax_lkwords, Regex.wordB])
      (Regex.grp 8 bmax_name)]

/-- The optional `Ptr` tail of `bmax_var`: `(?:([ \t]*)(Ptr))?`, groups 9,10. -/
def bmax_varPtr : Regex :=
  ropt (Regex.seq (Regex.grp 9 (rstar cSpTab)) (Regex.grp 10 (rstrg true "Ptr")))

/-- `bmax_var`: `(name)(?:(?:A|B|C)(?:([ \t]*)(Ptr))?)` — a name followed by
one of the three type-annotation alternatives and an optional `Ptr`.
Groups 0-10. -/
def bmax_var : Regex :=
  Regex.seq (Regex.grp 0 bmax_name)
    (Regex.seq (ralts [bmax_varA, bmax_varB, bmax_varC]) bmax_varPtr)

/-- `bmax_func = bmax_var + '?((?:[ \t]|\.\.\n)*)([(])'` — appending `?`
makes the whole annotation part of `bmax_var` optional; then optional
whitespace/line continuations (group 11) and an opening paren (group 12). -/
def bmax_func : Regex :=
  Regex.seq (Regex.grp 0 bmax_name)
    (rseqs [ropt (Regex.seq (ralts [bmax_varA, bmax_varB, bmax_varC]) bmax_varPtr),
      Regex.grp 11 (rstar (Regex.alt cSpTab (rstrg false "..\n"))),
      Regex.grp 12 (rchr false '(')])

/-- `[0-9]+\.[0-9]*(?!\.)` -/
def bmax_float1 : Regex :=
  rseqs [rplus cDigit, rchr false '.', rstar cDigit, Regex.lookNeg (rchr false '.')]

/-- `\.[0-9]*(?!\.)` (BlitzMax allows an empty fraction here). -/
def bmax_float2 : Regex :=
  rseqs [rchr false '.', rstar cDigit, Regex.lookNeg (rchr false '.')]

/-- `\$[0-9a-f]+` (under IGNORECASE, so `A`-`F` also match). -/
def bmax_hex : Regex :=
  Regex.seq (rchr false '$')
    (rplus (rcls true (fun c => digitP c || ('a' ≤ c && c ≤ 'f'))))

/-- `\%[10]+` -/
def rbin : Regex :=
  Regex.seq (rchr false '%') (rplus (Regex.cls (fun c => c = '1' || c = '0')))

/-- The catch-all operator rule of BlitzMax `root`:
`(?:(?:(:)?([ \t]*)(:?\b(Shl|Shr|Sar|Mod)\b|([+\-*/&|~]))|Or|And|Not|[=<>^]))`
(one token of kind `Operator` for the whole match; groups 0-4 unused). -/
def bmax_oper : Regex :=
  ralts [rseqs [ropt (Regex.grp 0 (rchr false ':')),
      Regex.grp 1 (rstar cSpTab),
      Regex.grp 2 (Regex.alt
        (rseqs [ropt (rchr false ':'), Regex.wordB,
          Regex.grp 3 (rwords true ["Shl", "Shr", "Sar", "Mod"]), Regex.wordB])
        (Regex.grp 4 (Regex.cls (fun c =>
          c = '+' || c = '-' || c = '*' || c = '/' || c = '&' || c = '|' || c = '~'))))],
    rstrg true "Or", rstrg true "And", rstrg true "Not",
    Regex.cls (fun c => c = '=' || c = '<' || c = '>' || c = '^')]

/-- `'root'` state of `BlitzMaxLexer.tokens`, in declaration order. -/
def bmax_root : List Rule := [
  ⟨rplus cSpTab, true, some (.tok .text), .stay⟩,
  ⟨rstrg false "..\n", true, some (.tok .text), .stay⟩,
  ⟨rseqs [rchr false '\'', rlstar cDot, rchr false '\n'], true,
    some (.tok .commentSingle), .stay⟩,
  ⟨rseqs [Regex.grp 0 (rstar cSpTab), Regex.wordB, rstrg true "Rem",
      rchr false '\n',
      rlstar (Regex.grp 1 (Regex.alt (rchr false '\n') cDot)),
      rstar cSpace, Regex.wordB, rstrg true "End",
      Regex.grp 2 (rstar cSpTab), rstrg true "Rem"], true,
    some (.tok .commentMultiline), .stay⟩,
  ⟨rchr false '"', true, some (.tok .stringDouble), .push "string"⟩,
  ⟨bmax_float1, true, some (.tok .numberFloat), .stay⟩,
  ⟨bmax_float2, true, some (.tok .numberFloat), .stay⟩,
  ⟨rplus cDigit, true, some (.tok .numberInteger), .stay⟩,
  ⟨bmax_hex, true, some (.tok .numberHex), .stay⟩,
  ⟨rbin, true, some (.tok .numberBin), .stay⟩,
  ⟨bmax_oper, true, some (.tok .operator), .stay⟩,
  ⟨Regex.cls (fun c => c = '(' || c = ')' || c = ',' || c = '.' || c = ':' ||
      c = '[' || c = ']'), true, some (.tok .punctuation), .stay⟩,
  ⟨Regex.seq (rchr false '#')
      (rstar (Regex.cls (fun c => isWordChar c || spTab c))), true,
    some (.tok .nameLabel), .stay⟩,
  ⟨Regex.seq (rchr false '?')
      (rstar (Regex.cls (fun c => isWordChar c || spTab c))), true,
    some (.tok .commentPreproc), .stay⟩,
  ⟨rseqs [Regex.wordB, Regex.grp 0 (rstrg true "New"), Regex.wordB,
      Regex.grp 1 (ropt cSpTab), Regex.grp 2 (ropt (rchr false '(')),
      Regex.grp 3 bmax_name], true,
    some (.byGroups [.keywordReserved, .text, .punctuation, .nameClass]),
    .stay⟩,
  ⟨rseqs [Regex.wordB,
      Regex.grp 0 (rwords true ["Import", "Framework", "Module"]),
      Regex.grp 1 (rplus cSpTab),
      Regex.grp 2 (rseqs [bmax_name, rchr false '.', bmax_name])], true,
    some (.byGroups [.keywordReserved, .text, .keywordNamespace]), .stay⟩,
  ⟨bmax_func, true,
    some (.byGroups [.nameFunction, .text, .keywordType, .operator, .text,
      .punctuation, .text, .keywordType, .nameClass, .text, .keywordType,
      .text, .punctuation]), .stay⟩,
  ⟨bmax_var, true,
    some (.byGroups [.nameVariable, .text, .keywordType, .operator, .text,
      .punctuation, .text, .keywordType, .nameClass, .text, .keywordType]),
    .stay⟩,
  ⟨rseqs [Regex.wordB, Regex.grp 0 (rwords true ["Type", "Extends"]),
      Regex.grp 1 (rplus cSpTab), Regex.grp 2 bmax_name], true,
    some (.byGroups [.keywordReserved, .text, .nameClass]), .stay⟩,
  ⟨rseqs [Regex.wordB, Regex.grp 0 (rstrg true "Ptr"), Regex.wordB], true,
    some (.tok .keywordType), .stay⟩,
  ⟨rseqs [Regex.wordB,
      Regex.grp 0 (rwords true ["Pi", "True", "False", "Null", "Self", "Super"]),
      Regex.wordB], true, some (.tok .keywordConstant), .stay⟩,
  ⟨rseqs [Regex.wordB,
      Regex.grp 0 (rwords true ["Local", "Global", "Const", "Field"]),
      Regex.wordB], true, some (.tok .keywordDeclaration), .stay⟩,
  ⟨rseqs [Regex.wordB, rwords true ["TNullMethodException",
      "TNullFunctionException", "TNullObjectException",
      "TArrayBoundsException", "TRuntimeException"], Regex.wordB], true,
    some (.tok .nameException), .stay⟩,
  ⟨rseqs [Regex.wordB, rwords true ["Strict", "SuperStrict", "Module",
      "ModuleInfo", "End", "Return", "Continue", "Exit", "Public", "Private",
      "Var", "VarPtr", "Chr", "Len", "Asc", "SizeOf", "Sgn", "Abs", "Min",
      "Max", "New", "Release", "Delete", "Incbin", "IncbinPtr", "IncbinLen",
      "Framework", "Include", "Import", "Extern", "EndExtern", "Function",
      "EndFunction", "Type", "EndType", "Extends", "Method", "EndMethod",
      "Abstract", "Final", "If", "Then", "Else", "ElseIf", "EndIf", "For",
      "To", "Next", "Step", "EachIn", "While", "Wend", "EndWhile", "Repeat",
      "Until", "Forever", "Select", "Case", "Default", "EndSelect", "Try",
      "Catch", "EndTry", "Throw", "Assert", "Goto", "DefData", "ReadData",
      "RestoreData"], Regex.wordB], true,
    some (.tok .keywordReserved), .stay⟩,
  ⟨Regex.grp 0 bmax_name, true, some (.tok .nameVariable), .stay⟩]

/-- `'string'` state shared shape of the two Blitz lexers:
`""` stays, `"C?` pops, `[^"]+` stays. -/
def blitz_string : List Rule := [
  ⟨rstrg false "\"\"", true, some (.tok .stringDouble), .stay⟩,
  ⟨Regex.seq (rchr false '"') (ropt (rchr true 'C')), true,
    some (.tok .stringDouble), .pop⟩,
  ⟨rplus (Regex.cls (fun c => !(c == '"'))), true,
    some (.tok .stringDouble), .stay⟩]

/-- `BlitzMaxLexer.tokens` -/
def bmax_tokens : Table := [("root", bmax_root), ("string", blitz_string)]

/-! ### BlitzBasicLexer (`flags = re.MULTILINE | re.IGNORECASE`) -/

/-- `bb_name = [a-z]\w*` (under IGNORECASE). -/
def bb_name : Regex :=
  Regex.seq (rcls true (fun c => 'a' ≤ c && c ≤ 'z')) (rstar cWord)

/-- `bb_sktypes = @{1,2}|[#$%]` -/
def bb_sktypes : Regex :=
  Regex.alt (Regex.seq (rchr false '@') (ropt (rchr false '@')))
    (Regex.cls (fun c => c = '#' || c = '$' || c = '%'))

/-- `bb_var = (name)(?:([ \t]*)(sktypes)|([ \t]*)([.])([ \t]*)(?:(name)))?`
with its seven groups numbered from `g` (it is interpolated into larger
patterns at several group offsets). -/
def bb_varG (g : Nat) : Regex :=
  Regex.seq (Regex.grp g bb_name)
    (ropt (Regex.alt
      (Regex.seq (Regex.grp (g + 1) (rstar cSpTab)) (Regex.grp (g + 2) bb_sktypes))
      (rseqs [Regex.grp (g + 3) (rstar cSpTab), Regex.grp (g + 4) (rchr false '.'),
        Regex.grp (g + 5) (rstar cSpTab), Regex.grp (g + 6) bb_name])))

/-- `\.[0-9]+(?!\.)` (BlitzBasic and Monkey require digits here). -/
def rfloat2plus : Regex :=
  rseqs [rchr false '.', rplus cDigit, Regex.lookNeg (rchr false '.')]

/-- `'root'` state of `BlitzBasicLexer.tokens`, in declaration order. -/
def bb_root : List Rule := [
  ⟨rplus cSpTab, true, some (.tok .text), .stay⟩,
  ⟨rseqs [rchr false ';', rlstar cDot, rchr false '\n'], true,
    some (.tok .commentSingle), .stay⟩,
  ⟨rchr false '"', true, some (.tok .stringDouble), .push "string"⟩,
  ⟨bmax_float1, true, some (.tok .numberFloat), .stay⟩,
  ⟨rfloat2plus, true, some (.tok .numberFloat), .stay⟩,
  ⟨rplus cDigit, true, some (.tok .numberInteger), .stay⟩,
  ⟨bmax_hex, true, some (.tok .numberHex), .stay⟩,
  ⟨rbin, true, some (.tok .numberBin), .stay⟩,
  ⟨rseqs [Regex.wordB, rwords true ["Shl", "Shr", "Sar", "Mod", "Or", "And",
      "Not", "Abs", "Sgn", "Handle", "Int", "Float", "Str", "First", "Last",
      "Before", "After"], Regex.wordB], true, some (.tok .operator), .stay⟩,
  ⟨Regex.grp 0 (Regex.cls (fun c => c = '+' || c = '-' || c = '*' || c = '/' ||
      c = '~' || c = '=' || c = '<' || c = '>' || c = '^')), true,
    some (.tok .operator), .stay⟩,
  ⟨Regex.cls (fun c => c = '(' || c = ')' || c = ',' || c = ':' || c = '[' ||
      c = ']' || c = '\\'), true, some (.tok .punctuation), .stay⟩,
  ⟨rseqs [rchr false '.', Regex.grp 0 (rstar cSpTab), Regex.grp 1 bb_name],
    true, some (.tok .nameLabel), .stay⟩,
  ⟨rseqs [Regex.wordB, Regex.grp 0 (rstrg true "New"), Regex.wordB,
      Regex.grp 1 (rplus cSpTab), Regex.grp 2 bb_name], true,
    some (.byGroups [.keywordReserved, .text, .nameClass]), .stay⟩,
  ⟨rseqs [Regex.wordB, Regex.grp 0 (rwords true ["Gosub", "Goto"]),
      Regex.wordB, Regex.grp 1 (rplus cSpTab), Regex.grp 2 bb_name], true,
    some (.byGroups [.keywordReserved, .text, .nameLabel]), .stay⟩,
  ⟨rseqs [Regex.wordB, Regex.grp 0 (rstrg true "Object"), Regex.wordB,
      Regex.grp 1 (rstar cSpTab), Regex.grp 2 (rchr false '.'),
      Regex.grp 3 (rstar cSpTab), Regex.grp 4 bb_name, Regex.wordB], true,
    some (.byGroups [.operator, .text, .punctuation, .text, .nameClass]),
    .stay⟩,
  ⟨rseqs [Regex.wordB, bb_varG 0, Regex.wordB,
      Regex.grp 7 (rstar cSpTab), Regex.grp 8 (rchr false '(')], true,
    some (.byGroups [.nameFunction, .text, .keywordType, .text, .punctuation,
      .text, .nameClass, .text, .punctuation]), .stay⟩,
  ⟨rseqs [Regex.wordB, Regex.grp 0 (rstrg true "Function"), Regex.wordB,
      Regex.grp 1 (rplus cSpTab), bb_varG 2], true,
    some (.byGroups [.keywordReserved, .text, .nameFunction, .text,
      .keywordType, .text, .punctuation, .text, .nameClass]), .stay⟩,
  ⟨rseqs [Regex.wordB, Regex.grp 0 (rstrg true "Type"),
      Regex.grp 1 (rplus cSpTab), Regex.grp 2 bb_name], true,
    some (.byGroups [.keywordReserved, .text, .nameClass]), .stay⟩,
  ⟨rseqs [Regex.wordB, Regex.grp 0 (rwords true ["Pi", "True", "False", "Null"]),
      Regex.wordB], true, some (.tok .keywordConstant), .stay⟩,
  ⟨rseqs [Regex.wordB,
      Regex.grp 0 (rwords true ["Local", "Global", "Const", "Field", "Dim"]),
      Regex.wordB], true, some (.tok .keywordDeclaration), .stay⟩,
  ⟨rseqs [Regex.wordB, rwords true ["End", "Return", "Exit", "Chr", "Len",
      "Asc", "New", "Delete", "Insert", "Include", "Function", "Type", "If",
      "Then", "Else", "ElseIf", "EndIf", "For", "To", "Next", "Step", "Each",
      "While", "Wend", "Repeat", "Until", "Forever", "Select", "Case",
      "Default", "Goto", "Gosub", "Data", "Read", "Restore"], Regex.wordB],
    true, some (.tok .keywordReserved), .stay⟩,
  ⟨bb_varG 0, true,
    some (.byGroups [.nameVariable, .text, .keywordType, .text, .punctuation,
      .text, .nameClass]), .stay⟩]

/-- `BlitzBasicLexer.tokens` -/
def bb_tokens : Table := [("root", bb_root), ("string", blitz_string)]

/-! ### MonkeyLexer (`flags = re.MULTILINE` only; case-insensitivity is
per-rule, via inline `(?i)`) -/

/-- `name_variable = [a-z_]\w*` (case-sensitive). -/
def monkey_name_variable : Regex :=
  Regex.seq (Regex.cls (fun c => ('a' ≤ c && c ≤ 'z') || c = '_')) (rstar cWord)

/-- `name_function = name_class = [A-Z]\w*` (case-sensitive). -/
def monkey_name_function : Regex :=
  Regex.seq (Regex.cls (fun c => 'A' ≤ c && c ≤ 'Z')) (rstar cWord)

/-- `name_constant = [A-Z_][A-Z0-9_]*` (case-sensitive). -/
def monkey_name_constant : Regex :=
  Regex.seq (Regex.cls (fun c => ('A' ≤ c && c ≤ 'Z') || c = '_'))
    (rstar (Regex.cls (fun c => ('A' ≤ c && c ≤ 'Z') || digitP c || c = '_')))

/-- `name_module = [a-z0-9_]*` (case-sensitive). -/
def monkey_name_module : Regex :=
  rstar (Regex.cls (fun c => ('a' ≤ c && c ≤ 'z') || digitP c || c = '_'))

/-- `keyword_type = (?:Int|Float|String|Bool|Object|Array|Void)`
(case-sensitive). -/
def monkey_keyword_type : Regex :=
  rwords false ["Int", "Float", "String", "Bool", "Object", "Array", "Void"]

/-- The character class `[0-9a-fA-Z]` of Monkey's hex-literal rule: digits,
lowercase `a`-`f`, and uppercase `A`-`Z` (so also `G`-`Z`, which are not
hexadecimal digits). -/
def monkey_hex_digit (c : Char) : Bool :=
  digitP c || ('a' ≤ c && c ≤ 'f') || ('A' ≤ c && c ≤ 'Z')

/-- Monkey's hex-literal rule `(r'\$[0-9a-fA-Z]+', Number.Hex)`. -/
def monkey_hex_rule : Rule :=
  ⟨Regex.seq (rchr false '$') (rplus (Regex.cls monkey_hex_digit)), false,
    some (.tok .numberHex), .stay⟩

/-- `'root'` state of `MonkeyLexer.tokens`, in declaration order. -/
def monkey_root : List Rule := [
  ⟨rplus cSpace, false, some (.tok .text), .stay⟩,
  ⟨Regex.seq (rchr false '\'') (rstar cDot), false, some (.tok .comment), .stay⟩,
  ⟨rseqs [Regex.bol, rchr false '#', rstrg true "rem", Regex.wordB], true,
    some (.tok .commentMultiline), .push "comment"⟩,
  ⟨rseqs [Regex.bol, rchr false '#', rwords true ["If", "ElseIf", "Else",
      "EndIf", "End", "Print", "Error"], Regex.wordB], true,
    some (.tok .commentPreproc), .stay⟩,
  ⟨Regex.seq Regex.bol (rchr false '#'), false,
    some (.tok .commentPreproc), .push "variables"⟩,
  ⟨rchr false '"', false, some (.tok .stringDouble), .push "string"⟩,
  ⟨bmax_float1, false, some (.tok .numberFloat), .stay⟩,
  ⟨rfloat2plus, false, some (.tok .numberFloat), .stay⟩,
  ⟨rplus cDigit, false, some (.tok .numberInteger), .stay⟩,
  monkey_hex_rule,
  ⟨rbin, false, some (.tok .numberBin), .stay⟩,
  ⟨rseqs [Regex.wordB, monkey_keyword_type, Regex.wordB], false,
    some (.tok .keywordType), .stay⟩,
  ⟨rseqs [Regex.wordB, rwords true ["Try", "Catch", "Throw"], Regex.wordB],
    true, some (.tok .keywordReserved), .stay⟩,
  ⟨rstrg false "Throwable", false, some (.tok .nameException), .stay⟩,
  ⟨rseqs [Regex.wordB, rwords true ["Null", "True", "False"], Regex.wordB],
    true, some (.tok .nameBuiltin), .stay⟩,
  ⟨rseqs [Regex.wordB, rwords true ["Self", "Super"], Regex.wordB], true,
    some (.tok .nameBuiltinPseudo), .stay⟩,
  ⟨rseqs [Regex.wordB, rwords false ["HOST", "LANG", "TARGET", "CONFIG"],
      Regex.wordB], false, some (.tok .nameConstant), .stay⟩,
  ⟨rseqs [Regex.bol, Regex.grp 0 (rstrg true "Import"),
      Regex.grp 1 (rplus cSpace), Regex.grp 2 (rstar cDot),
      Regex.grp 3 (rchr false '\n')], true,
    some (.byGroups [.keywordNamespace, .text, .nameNamespace, .text]),
    .stay⟩,
  ⟨rseqs [Regex.bol, rstrg true "Strict", Regex.wordB, rstar cDot,
      rchr false '\n'], true, some (.tok .keywordReserved), .stay⟩,
  ⟨rseqs [Regex.grp 0 (rwords true ["Const", "Local", "Global", "Field"]),
      Regex.grp 1 (rplus cSpace)], true,
    some (.byGroups [.keywordDeclaration, .text]), .push "variables"⟩,
  ⟨rseqs [Regex.grp 0 (rwords true ["New", "Class", "Interface", "Extends",
      "Implements"]), Regex.grp 1 (rplus cSpace)], true,
    some (.byGroups [.keywordReserved, .text]), .push "classname"⟩,
  ⟨rseqs [Regex.grp 0 (rwords true ["Function", "Method"]),
      Regex.grp 1 (rplus cSpace)], true,
    some (.byGroups [.keywordReserved, .text]), .push "funcname"⟩,
  ⟨Regex.seq (rwords true ["End", "Return", "Public", "Private", "Extern",
      "Property", "Final", "Abstract"]) Regex.wordB, true,
    some (.tok .keywordReserved), .stay⟩,
  ⟨Regex.seq (rwords true ["If", "Then", "Else", "ElseIf", "EndIf", "Select",
      "Case", "Default", "While", "Wend", "Repeat", "Until", "Forever", "For",
      "To", "Until", "Step", "EachIn", "Next", "Exit", "Continue"])
      (rplus cSpace), true, some (.tok .keywordReserved), .stay⟩,
  ⟨rseqs [Regex.wordB, rwords true ["Module", "Inline"], Regex.wordB], true,
    some (.tok .keywordReserved), .stay⟩,
  ⟨Regex.cls (fun c => c = '[' || c = ']'), false,
    some (.tok .punctuation), .stay⟩,
  ⟨ralts [rstrg false "<=", rstrg false ">=", rstrg false "<>",
      rstrg false "*=", rstrg false "/=", rstrg false "+=", rstrg false "-=",
      rstrg false "&=", rstrg false "~=", rstrg false "|=",
      Regex.cls (fun c => c = '-' || c = '&' || c = '*' || c = '/' ||
        c = '^' || c = '+' || c = '=' || c = '<' || c = '>' || c = '|' ||
        c = '~')], false, some (.tok .operator), .stay⟩,
  ⟨rwords true ["Not", "Mod", "Shl", "Shr", "And", "Or"], true,
    some (.tok .operatorWord), .stay⟩,
  ⟨Regex.cls (fun c => c = '(' || c = ')' || c = '{' || c = '}' || c = '!' ||
      c = '#' || c = ',' || c = '.' || c = ':'), false,
    some (.tok .punctuation), .stay⟩,
  ⟨Regex.seq monkey_name_constant Regex.wordB, false,
    some (.tok .nameConstant), .stay⟩,
  ⟨Regex.seq monkey_name_function Regex.wordB, false,
    some (.tok .nameFunction), .stay⟩,
  ⟨Regex.seq monkey_name_variable Regex.wordB, false,
    some (.tok .nameVariable), .stay⟩]

/-- `'funcname'` state of `MonkeyLexer.tokens`. -/
def monkey_funcname : List Rule := [
  ⟨rseqs [rcls true (fun c => 'A' ≤ c && c ≤ 'Z'), rstar cWord, Regex.wordB],
    true, some (.tok .nameFunction), .stay⟩,
  ⟨rchr false ':', false, some (.tok .punctuation), .push "classname"⟩,
  ⟨rplus cSpace, false, some (.tok .text), .stay⟩,
  ⟨rchr false '(', false, some (.tok .punctuation), .push "variables"⟩,
  ⟨rchr false ')', false, some (.tok .punctuation), .pop⟩]

/-- `'classname'` state of `MonkeyLexer.tokens`; the last entry is the
zero-width `default('#pop')` pseudo-rule. -/
def monkey_classname : List Rule := [
  ⟨Regex.seq monkey_name_module (rchr false '.'), false,
    some (.tok .nameNamespace), .stay⟩,
  ⟨Regex.seq monkey_keyword_type Regex.wordB, false,
    some (.tok .keywordType), .stay⟩,
  ⟨Regex.seq monkey_name_function Regex.wordB, false,
    some (.tok .nameClass), .stay⟩,
  ⟨rseqs [Regex.grp 0 (rchr false '['), Regex.grp 1 (rstar cSpace),
      Regex.grp 2 (rstar cDigit), Regex.grp 3 (rstar cSpace),
      Regex.grp 4 (rchr false ']')], false,
    some (.byGroups [.punctuation, .text, .numberInteger, .text,
      .punctuation]), .stay⟩,
  ⟨Regex.seq (rplus cSpace) (Regex.lookNeg (rchr false '<')), false,
    some (.tok .text), .pop⟩,
  ⟨rchr false '<', false, some (.tok .punctuation), .pushTop⟩,
  ⟨rchr false '>', false, some (.tok .punctuation), .pop⟩,
  ⟨rchr false '\n', false, some (.tok .text), .pop⟩,
  ⟨Regex.eps, false, none, .pop⟩]

/-- `'variables'` state of `MonkeyLexer.tokens`; the last entry is the
zero-width `default('#pop')` pseudo-rule. -/
def monkey_variables : List Rule := [
  ⟨Regex.seq monkey_name_constant Regex.wordB, false,
    some (.tok .nameConstant), .stay⟩,
  ⟨Regex.seq monkey_name_variable Regex.wordB, false,
    some (.tok .nameVariable), .stay⟩,
  ⟨Regex.cls (fun c => c = '?' || c = '%' || c = '#' || c = '$'), false,
    some (.tok .keywordType), .stay⟩,
  ⟨rplus cSpace, false, some (.tok .text), .stay⟩,
  ⟨rchr false ':', false, some (.tok .punctuation), .push "classname"⟩,
  ⟨rchr false ',', false, some (.tok .punctuation), .pushTop⟩,
  ⟨Regex.eps, false, none, .pop⟩]

/-- `'string'` state of `MonkeyLexer.tokens`. -/
def monkey_string : List Rule := [
  ⟨rplus (Regex.cls (fun c => !(c = '"' || c = '~'))), false,
    some (.tok .stringDouble), .stay⟩,
  ⟨ralts [rstrg false "~q", rstrg false "~n", rstrg false "~r",
      rstrg false "~t", rstrg false "~z", rstrg false "~~"], false,
    some (.tok .stringEscape), .stay⟩,
  ⟨rchr false '"', false, some (.tok .stringDouble), .pop⟩]

/-- `'comment'` state of `MonkeyLexer.tokens`. -/
def monkey_comment : List Rule := [
  ⟨rseqs [Regex.bol, rchr false '#', rstrg true "rem", rlstar cDot], true,
    some (.tok .commentMultiline), .pushTop⟩,
  ⟨rseqs [Regex.bol, rchr false '#', rstrg true "end", rlstar cDot], true,
    some (.tok .commentMultiline), .pop⟩,
  ⟨rchr false '\n', false, some (.tok .commentMultiline), .stay⟩,
  ⟨rplus cDot, false, some (.tok .commentMultiline), .stay⟩]

/-- `MonkeyLexer.tokens` -/
def monkey_tokens : Table :=
  [("root", monkey_root), ("funcname", monkey_funcname),
   ("classname", monkey_classname), ("variables", monkey_variables),
   ("string", monkey_string), ("comment", monkey_comment)]

/-! ### Table well-formedness

The universal properties (total coverage, stack safety) hold for any table
passing the following syntactic checks; `by decide` discharges them for the
three tables of this file. -/

/-- Syntactic well-formedness of one rule of state `n`:
* a rule whose pattern could match the empty string must be a `default`
  pseudo-rule (`act = none`, transition `#pop`) of an auxiliary (non-root)
  state — in the three tables these are exactly the two `default('#pop')`
  entries of Monkey's `classname` and `variables` states;
* a rule emitting nothing must be zero-width;
* a `bygroups` rule must have its groups covering the whole pattern, numbered
  left to right from 0, with exactly one kind per group. -/
def ruleOK (n : String) (r : Rule) : Bool :=
  (!nullable r.pat || (r.act.isNone && decide (r.op = StateOp.pop) && n != "root")) &&
  (r.act.isSome || zeroWidth r.pat) &&
  (match r.act with
   | some (.byGroups ks) =>
     covered r.pat 0 && decide (ks.length = groupCount r.pat)
   | _ => true)

/-- All rules of all states of the table are well-formed. -/
def tableOK (tbl : Table) : Bool := tbl.all fun p => p.2.all (ruleOK p.1)

example : tableOK bmax_tokens = true := by decide
example : tableOK bb_tokens = true := by decide
example : tableOK monkey_tokens = true := by decide


/-! ### Matcher lemmas -/

/-- Induction principle for the star loop: any property that holds
reflexively and is preserved by prefixing one consuming iteration of the
body holds for every result of `mstarAux`. -/
theorem mstarAux_rec {m : Nat → Caps → List (Nat × Caps)} {g : Bool}
    (P : Nat → Caps → Nat → Caps → Prop)
    (hrefl : ∀ pos caps, P pos caps pos caps)
    (hstep : ∀ pos caps e1 c1 e c', (e1, c1) ∈ m pos caps → pos < e1 →
      P e1 c1 e c' → P pos caps e c') :
    ∀ f pos caps e c', (e, c') ∈ mstarAux m g f pos caps → P pos caps e c' := by
  intro f
  induction f with
  | zero =>
    intro pos caps e c' hm
    simp only [mstarAux, List.mem_singleton, Prod.mk.injEq] at hm
    obtain ⟨rfl, rfl⟩ := hm
    exact hrefl _ _
  | succ f ih =>
    intro pos caps e c' hm
    simp only [mstarAux] at hm
    have hm' : (e, c') = (pos, caps) ∨
        (e, c') ∈ ((m pos caps).filter (fun q => pos < q.1)).flatMap
          (fun q => mstarAux m g f q.1 q.2) := by
      split at hm
      · rw [List.mem_append, List.mem_singleton] at hm
        tauto
      · rw [List.mem_cons] at hm
        tauto
    rcases hm' with h | h
    · rw [Prod.mk.injEq] at h
      obtain ⟨rfl, rfl⟩ := h
      exact hrefl _ _
    · rw [List.mem_flatMap] at h
      obtain ⟨⟨e1, c1⟩, hq, hrec⟩ := h
      rw [List.mem_filter] at hq
      exact hstep pos caps e1 c1 e c' hq.1 (of_decide_eq_true hq.2)
        (ih e1 c1 e c' hrec)

/-- Characterization of a character-class match. -/
theorem mem_mtch_cls {s : List Char} {p : Char → Bool} {pos : Nat}
    {caps : Caps} {e : Nat} {c' : Caps} :
    (e, c') ∈ mtch s (Regex.cls p) pos caps ↔
      (∃ c, s.get? pos = some c ∧ p c = true) ∧ e = pos + 1 ∧ c' = caps := by
  constructor
  · intro h
    simp only [mtch.eq_def] at h
    rcases hg : s.get? pos with _ | c <;> rw [hg] at h
    · exact absurd h (List.not_mem_nil _)
    · have h' : (e, c') ∈ (if p c then [(pos + 1, caps)] else []) := h
      split at h'
      · rw [List.mem_singleton, Prod.mk.injEq] at h'
        exact ⟨⟨c, rfl, by assumption⟩, h'⟩
      · exact absurd h' (List.not_mem_nil _)
  · rintro ⟨⟨c, hg, hp⟩, rfl, rfl⟩
    have key : mtch s (Regex.cls p) pos c' =
        match s.get? pos with
        | some ch => if p ch then [(pos + 1, c')] else []
        | none => [] := rfl
    rw [key, hg]
    show (pos + 1, c') ∈ (if p c then [(pos + 1, c')] else [])
    rw [if_pos hp]
    exact List.mem_singleton.mpr rfl

/-- Every match ends at or after its start. -/
theorem mtch_le (s : List Char) :
    ∀ r pos caps e c', (e, c') ∈ mtch s r pos caps → pos ≤ e := by
  intro r
  induction r with
  | eps =>
    intro pos caps e c' h
    simp only [mtch, List.mem_singleton, Prod.mk.injEq] at h
    omega
  | cls p =>
    intro pos caps e c' h
    obtain ⟨_, rfl, rfl⟩ := mem_mtch_cls.mp h
    omega
  | seq r1 r2 ih1 ih2 =>
    intro pos caps e c' h
    simp only [mtch, List.mem_flatMap] at h
    obtain ⟨⟨e1, c1⟩, hq, h2⟩ := h
    exact le_trans (ih1 pos caps e1 c1 hq) (ih2 e1 c1 e c' h2)
  | alt r1 r2 ih1 ih2 =>
    intro pos caps e c' h
    simp only [mtch, List.mem_append] at h
    rcases h with h | h
    · exact ih1 pos caps e c' h
    · exact ih2 pos caps e c' h
  | star g r ih =>
    intro pos caps e c' h
    exact mstarAux_rec (fun pos _ e _ => pos ≤ e) (fun _ _ => le_refl _)
      (fun _ _ _ _ _ _ _ hlt hle => le_trans (le_of_lt hlt) hle)
      (s.length + 1) pos caps e c' h
  | grp i r ih =>
    intro pos caps e c' h
    simp only [mtch, List.mem_map] at h
    obtain ⟨⟨e1, c1⟩, hq, heq⟩ := h
    rw [Prod.mk.injEq] at heq
    exact heq.1 ▸ ih pos caps e1 c1 hq
  | lookNeg r ih =>
    intro pos caps e c' h
    simp only [mtch] at h
    split at h
    · simp only [List.mem_singleton, Prod.mk.injEq] at h
      omega
    · exact absurd h (List.not_mem_nil _)
  | bol =>
    intro pos caps e c' h
    simp only [mtch] at h
    split at h
    · simp only [List.mem_singleton, Prod.mk.injEq] at h
      omega
    · exact absurd h (List.not_mem_nil _)
  | wordB =>
    intro pos caps e c' h
    simp only [mtch] at h
    split at h
    · simp only [List.mem_singleton, Prod.mk.injEq] at h
      omega
    · exact absurd h (List.not_mem_nil _)

/-- Matches never run past the end of the input. -/
theorem mtch_ub (s : List Char) :
    ∀ r pos caps e c', pos ≤ s.length → (e, c') ∈ mtch s r pos caps →
      e ≤ s.length := by
  intro r
  induction r with
  | eps =>
    intro pos caps e c' hp h
    simp only [mtch, List.mem_singleton, Prod.mk.injEq] at h
    omega
  | cls p =>
    intro pos caps e c' hp h
    obtain ⟨⟨c, hg, _⟩, rfl, rfl⟩ := mem_mtch_cls.mp h
    have hlt : pos < s.length := by
      by_contra hge
      rw [List.get?_eq_none.mpr (by omega)] at hg
      exact absurd hg (by simp)
    omega
  | seq r1 r2 ih1 ih2 =>
    intro pos caps e c' hp h
    simp only [mtch, List.mem_flatMap] at h
    obtain ⟨⟨e1, c1⟩, hq, h2⟩ := h
    exact ih2 e1 c1 e c' (ih1 pos caps e1 c1 hp hq) h2
  | alt r1 r2 ih1 ih2 =>
    intro pos caps e c' hp h
    simp only [mtch, List.mem_append] at h
    rcases h with h | h
    · exact ih1 pos caps e c' hp h
    · exact ih2 pos caps e c' hp h
  | star g r ih =>
    intro pos caps e c' hp h
    exact mstarAux_rec (fun pos _ e _ => pos ≤ s.length → e ≤ s.length)
      (fun _ _ hle => hle)
      (fun pos caps e1 c1 e c' hmem hlt hrec hle =>
        hrec (ih pos caps e1 c1 hle hmem))
      (s.length + 1) pos caps e c' h hp
  | grp i r ih =>
    intro pos caps e c' hp h
    simp only [mtch, List.mem_map] at h
    obtain ⟨⟨e1, c1⟩, hq, heq⟩ := h
    rw [Prod.mk.injEq] at heq
    exact heq.1 ▸ ih pos caps e1 c1 hp hq
  | lookNeg r ih =>
    intro pos caps e c' hp h
    simp only [mtch] at h
    split at h
    · simp only [List.mem_singleton, Prod.mk.injEq] at h
      omega
    · exact absurd h (List.not_mem_nil _)
  | bol =>
    intro pos caps e c' hp h
    simp only [mtch] at h
    split at h
    · simp only [List.mem_singleton, Prod.mk.injEq] at h
      omega
    · exact absurd h (List.not_mem_nil _)
  | wordB =>
    intro pos caps e c' hp h
    simp only [mtch] at h
    split at h
    · simp only [List.mem_singleton, Prod.mk.injEq] at h
      omega
    · exact absurd h (List.not_mem_nil _)

/-- Matching preserves the number of capture slots. -/
theorem mtch_capsLen (s : List Char) :
    ∀ r pos caps e c', (e, c') ∈ mtch s r pos caps →
      c'.length = caps.length := by
  intro r
  induction r with
  | eps =>
    intro pos caps e c' h
    simp only [mtch, List.mem_singleton, Prod.mk.injEq] at h
    rw [h.2]
  | cls p =>
    intro pos caps e c' h
    obtain ⟨_, _, rfl⟩ := mem_mtch_cls.mp h
    rfl
  | seq r1 r2 ih1 ih2 =>
    intro pos caps e c' h
    simp only [mtch, List.mem_flatMap] at h
    obtain ⟨⟨e1, c1⟩, hq, h2⟩ := h
    rw [ih2 e1 c1 e c' h2, ih1 pos caps e1 c1 hq]
  | alt r1 r2 ih1 ih2 =>
    intro pos caps e c' h
    simp only [mtch, List.mem_append] at h
    rcases h with h | h
    · exact ih1 pos caps e c' h
    · exact ih2 pos caps e c' h
  | star g r ih =>
    intro pos caps e c' h
    exact mstarAux_rec (fun _ caps _ c' => c'.length = caps.length)
      (fun _ _ => rfl)
      (fun pos caps e1 c1 e c' hmem _ hrec =>
        hrec.trans (ih pos caps e1 c1 hmem))
      (s.length + 1) pos caps e c' h
  | grp i r ih =>
    intro pos caps e c' h
    simp only [mtch, List.mem_map] at h
    obtain ⟨⟨e1, c1⟩, hq, heq⟩ := h
    rw [Prod.mk.injEq] at heq
    rw [← heq.2, List.length_set]
    exact ih pos caps e1 c1 hq
  | lookNeg r ih =>
    intro pos caps e c' h
    simp only [mtch] at h
    split at h
    · simp only [List.mem_singleton, Prod.mk.injEq] at h
      rw [h.2]
    · exact absurd h (List.not_mem_nil _)
  | bol =>
    intro pos caps e c' h
    simp only [mtch] at h
    split at h
    · simp only [List.mem_singleton, Prod.mk.injEq] at h
      rw [h.2]
    · exact absurd h (List.not_mem_nil _)
  | wordB =>
    intro pos caps e c' h
    simp only [mtch] at h
    split at h
    · simp only [List.mem_singleton, Prod.mk.injEq] at h
      rw [h.2]
    · exact absurd h (List.not_mem_nil _)

/-- A group-free pattern leaves the capture slots untouched. -/
theorem mtch_groupFree (s : List Char) :
    ∀ r, groupCount r = 0 → ∀ pos caps e c',
      (e, c') ∈ mtch s r pos caps → c' = caps := by
  intro r
  induction r with
  | eps =>
    intro _ pos caps e c' h
    simp only [mtch, List.mem_singleton, Prod.mk.injEq] at h
    exact h.2
  | cls p =>
    intro _ pos caps e c' h
    obtain ⟨_, _, rfl⟩ := mem_mtch_cls.mp h
    rfl
  | seq r1 r2 ih1 ih2 =>
    intro hg pos caps e c' h
    simp only [groupCount, Nat.add_eq_zero] at hg
    simp only [mtch, List.mem_flatMap] at h
    obtain ⟨⟨e1, c1⟩, hq, h2⟩ := h
    rw [ih2 hg.2 e1 c1 e c' h2, ih1 hg.1 pos caps e1 c1 hq]
  | alt r1 r2 ih1 ih2 =>
    intro hg pos caps e c' h
    simp only [groupCount, Nat.add_eq_zero] at hg
    simp only [mtch, List.mem_append] at h
    rcases h with h | h
    · exact ih1 hg.1 pos caps e c' h
    · exact ih2 hg.2 pos caps e c' h
  | star g r ih =>
    intro hg pos caps e c' h
    exact mstarAux_rec (fun _ caps _ c' => c' = caps)
      (fun _ _ => rfl)
      (fun pos caps e1 c1 e c' hmem _ hrec =>
        hrec.trans (ih hg pos caps e1 c1 hmem))
      (s.length + 1) pos caps e c' h
  | grp i r ih =>
    intro hg
    exact absurd hg (by simp [groupCount])
  | lookNeg r ih =>
    intro _ pos caps e c' h
    simp only [mtch] at h
    split at h
    · simp only [List.mem_singleton, Prod.mk.injEq] at h
      exact h.2
    · exact absurd h (List.not_mem_nil _)
  | bol =>
    intro _ pos caps e c' h
    simp only [mtch] at h
    split at h
    · simp only [List.mem_singleton, Prod.mk.injEq] at h
      exact h.2
    · exact absurd h (List.not_mem_nil _)
  | wordB =>
    intro _ pos caps e c' h
    simp only [mtch] at h
    split at h
    · simp only [List.mem_singleton, Prod.mk.injEq] at h
      exact h.2
    · exact absurd h (List.not_mem_nil _)

/-- A non-nullable pattern consumes at least one character. -/
theorem mtch_consume (s : List Char) :
    ∀ r, nullable r = false → ∀ pos caps e c',
      (e, c') ∈ mtch s r pos caps → pos < e := by
  intro r
  induction r with
  | eps => intro hn; exact absurd hn (by simp [nullable])
  | cls p =>
    intro _ pos caps e c' h
    obtain ⟨_, rfl, rfl⟩ := mem_mtch_cls.mp h
    omega
  | seq r1 r2 ih1 ih2 =>
    intro hn pos caps e c' h
    simp only [mtch, List.mem_flatMap] at h
    obtain ⟨⟨e1, c1⟩, hq, h2⟩ := h
    rcases Bool.and_eq_false_iff.mp hn with hn1 | hn2
    · exact lt_of_lt_of_le (ih1 hn1 pos caps e1 c1 hq) (mtch_le s r2 e1 c1 e c' h2)
    · exact lt_of_le_of_lt (mtch_le s r1 pos caps e1 c1 hq) (ih2 hn2 e1 c1 e c' h2)
  | alt r1 r2 ih1 ih2 =>
    intro hn pos caps e c' h
    simp only [nullable, Bool.or_eq_false_iff] at hn
    simp only [mtch, List.mem_append] at h
    rcases h with h | h
    · exact ih1 hn.1 pos caps e c' h
    · exact ih2 hn.2 pos caps e c' h
  | star g r ih => intro hn; exact absurd hn (by simp [nullable])
  | grp i r ih =>
    intro hn pos caps e c' h
    simp only [mtch, List.mem_map] at h
    obtain ⟨⟨e1, c1⟩, hq, heq⟩ := h
    rw [Prod.mk.injEq] at heq
    exact heq.1 ▸ ih hn pos caps e1 c1 hq
  | lookNeg r ih => intro hn; exact absurd hn (by simp [nullable])
  | bol => intro hn; exact absurd hn (by simp [nullable])
  | wordB => intro hn; exact absurd hn (by simp [nullable])

/-- A syntactically zero-width pattern consumes nothing. -/
theorem mtch_zeroWidth (s : List Char) :
    ∀ r, zeroWidth r = true → ∀ pos caps e c',
      (e, c') ∈ mtch s r pos caps → e = pos := by
  intro r
  induction r with
  | eps =>
    intro _ pos caps e c' h
    simp only [mtch, List.mem_singleton, Prod.mk.injEq] at h
    exact h.1
  | cls p => intro hz; exact absurd hz (by simp [zeroWidth])
  | seq r1 r2 ih1 ih2 =>
    intro hz pos caps e c' h
    simp only [zeroWidth, Bool.and_eq_true] at hz
    simp only [mtch, List.mem_flatMap] at h
    obtain ⟨⟨e1, c1⟩, hq, h2⟩ := h
    rw [ih2 hz.2 e1 c1 e c' h2, ih1 hz.1 pos caps e1 c1 hq]
  | alt r1 r2 ih1 ih2 =>
    intro hz pos caps e c' h
    simp only [zeroWidth, Bool.and_eq_true] at hz
    simp only [mtch, List.mem_append] at h
    rcases h with h | h
    · exact ih1 hz.1 pos caps e c' h
    · exact ih2 hz.2 pos caps e c' h
  | star g r ih => intro hz; exact absurd hz (by simp [zeroWidth])
  | grp i r ih =>
    intro hz pos caps e c' h
    simp only [mtch, List.mem_map] at h
    obtain ⟨⟨e1, c1⟩, hq, heq⟩ := h
    rw [Prod.mk.injEq] at heq
    exact heq.1 ▸ ih hz pos caps e1 c1 hq
  | lookNeg r ih =>
    intro _ pos caps e c' h
    simp only [mtch] at h
    split at h
    · simp only [List.mem_singleton, Prod.mk.injEq] at h
      exact h.1
    · exact absurd h (List.not_mem_nil _)
  | bol =>
    intro _ pos caps e c' h
    simp only [mtch] at h
    split at h
    · simp only [List.mem_singleton, Prod.mk.injEq] at h
      exact h.1
    · exact absurd h (List.not_mem_nil _)
  | wordB =>
    intro _ pos caps e c' h
    simp only [mtch] at h
    split at h
    · simp only [List.mem_singleton, Prod.mk.injEq] at h
      exact h.1
    · exact absurd h (List.not_mem_nil _)

/-! ### Capture-span tiling for `bygroups` patterns -/

theorem seg_getElem? (caps : Caps) (lo n k : Nat) :
    (seg caps lo n)[k]? = if k < n then caps[lo + k]? else none := by
  simp [seg, List.getElem?_take, List.getElem?_drop]

theorem seg_congr {c1 c2 : Caps} (lo n : Nat)
    (h : ∀ k, k < n → c1[lo + k]? = c2[lo + k]?) :
    seg c1 lo n = seg c2 lo n := by
  apply List.ext_getElem?
  intro j
  rw [seg_getElem?, seg_getElem?]
  split
  · exact h j (by assumption)
  · rfl

theorem seg_split (caps : Caps) (lo n1 n2 : Nat) :
    seg caps lo (n1 + n2) = seg caps lo n1 ++ seg caps (lo + n1) n2 := by
  simp [seg, List.take_add, List.drop_drop]

theorem seg_replicate (G lo n : Nat) (h : lo + n ≤ G) :
    seg (List.replicate G (none : Option (Nat × Nat))) lo n =
      List.replicate n none := by
  apply List.ext_getElem?
  intro j
  rw [seg_getElem?, List.getElem?_replicate, List.getElem?_replicate]
  by_cases hj : j < n
  · rw [if_pos hj, if_pos (by omega), if_pos hj]
  · rw [if_neg hj, if_neg hj]

theorem seg_set_self (caps : Caps) (lo : Nat) (v : Option (Nat × Nat))
    (h : lo < caps.length) : seg (caps.set lo v) lo 1 = [v] := by
  apply List.ext_getElem?
  intro j
  rw [seg_getElem?]
  match j with
  | 0 =>
    rw [if_pos (by omega)]
    simpa using List.getElem?_set_self (by simpa using h)
  | k + 1 =>
    rw [if_neg (by omega)]
    simp

theorem spansTile_le : ∀ (caps : Caps) (pos e : Nat),
    spansTile caps pos e → pos ≤ e := by
  intro caps
  induction caps with
  | nil => intro pos e h; exact le_of_eq h
  | cons x rest ih =>
    intro pos e h
    match x with
    | none => exact ih pos e h
    | some (a, b) =>
      obtain ⟨_, hab, hrest⟩ := h
      exact le_trans hab (ih b e hrest)

theorem spansTile_append : ∀ (xs ys : Caps) (pos m e : Nat),
    spansTile xs pos m → spansTile ys m e → spansTile (xs ++ ys) pos e := by
  intro xs
  induction xs with
  | nil =>
    intro ys pos m e h1 h2
    cases h1
    exact h2
  | cons x rest ih =>
    intro ys pos m e h1 h2
    match x with
    | none => exact ih ys pos m e h1 h2
    | some (a, b) =>
      obtain ⟨ha, hab, hrest⟩ := h1
      exact ⟨ha, hab, ih ys b m e hrest h2⟩

theorem spansTile_replicate (n pos : Nat) :
    spansTile (List.replicate n none) pos pos := by
  induction n with
  | zero => rfl
  | succ k ih => exact ih

/-- The tiling theorem for `bygroups` patterns: if `covered r lo` holds and
the slots `lo..lo+groupCount r` start out unset, then any match of `r` from
`pos` to `e` leaves all other slots untouched and fills this window so that
its participating spans tile `[pos, e)` in slot order. -/
theorem mtch_covered (s : List Char) :
    ∀ (r : Regex) (lo : Nat) (pos : Nat) (caps : Caps) (e : Nat) (c' : Caps),
      covered r lo = true →
      lo + groupCount r ≤ caps.length →
      seg caps lo (groupCount r) = List.replicate (groupCount r) none →
      (e, c') ∈ mtch s r pos caps →
      (∀ j, j < lo ∨ lo + groupCount r ≤ j → c'[j]? = caps[j]?) ∧
        spansTile (seg c' lo (groupCount r)) pos e := by
  intro r
  induction r with
  | eps =>
    intro lo pos caps e c' _ _ _ h
    simp only [mtch, List.mem_singleton, Prod.mk.injEq] at h
    obtain ⟨rfl, rfl⟩ := h
    exact ⟨fun _ _ => rfl, rfl⟩
  | cls p =>
    intro lo pos caps e c' hcov
    exact absurd hcov (by simp [covered])
  | seq r1 r2 ih1 ih2 =>
    intro lo pos caps e c' hcov hlen hseg h
    simp only [covered, Bool.and_eq_true] at hcov
    simp only [mtch, List.mem_flatMap] at h
    obtain ⟨⟨e1, c1⟩, hq, h2⟩ := h
    have hG : groupCount (Regex.seq r1 r2) = groupCount r1 + groupCount r2 := rfl
    rw [hG] at hlen hseg
    rw [seg_split] at hseg
    have hlen1 : (seg caps lo (groupCount r1)).length = groupCount r1 := by
      simp [seg]; omega
    rw [List.replicate_add] at hseg
    obtain ⟨hseg1, hseg2⟩ := List.append_inj hseg
      (by rw [hlen1, List.length_replicate])
    obtain ⟨hout1, htile1⟩ := ih1 lo pos caps e1 c1 hcov.1 (by omega) hseg1 hq
    have hc1len : c1.length = caps.length := mtch_capsLen s r1 pos caps e1 c1 hq
    have hseg2' : seg c1 (lo + groupCount r1) (groupCount r2) =
        List.replicate (groupCount r2) none := by
      rw [seg_congr (lo + groupCount r1) (groupCount r2)
        (fun k _ => hout1 (lo + groupCount r1 + k) (by omega))]
      exact hseg2
    obtain ⟨hout2, htile2⟩ := ih2 (lo + groupCount r1) e1 c1 e c' hcov.2
      (by omega) hseg2' h2
    constructor
    · intro j hj
      rw [hout2 j (by omega), hout1 j (by omega)]
    · rw [hG, seg_split]
      refine spansTile_append _ _ pos e1 e ?_ htile2
      rw [seg_congr lo (groupCount r1)
        (fun k hk => hout2 (lo + k) (by omega))]
      exact htile1
  | alt r1 r2 ih1 ih2 =>
    intro lo pos caps e c' hcov hlen hseg h
    simp only [covered, Bool.and_eq_true] at hcov
    simp only [mtch, List.mem_append] at h
    have hG : groupCount (Regex.alt r1 r2) = groupCount r1 + groupCount r2 := rfl
    rw [hG] at hlen hseg
    rw [seg_split] at hseg
    have hlen1 : (seg caps lo (groupCount r1)).length = groupCount r1 := by
      simp [seg]; omega
    rw [List.replicate_add] at hseg
    obtain ⟨hseg1, hseg2⟩ := List.append_inj hseg
      (by rw [hlen1, List.length_replicate])
    rcases h with h | h
    · obtain ⟨hout1, htile1⟩ := ih1 lo pos caps e c' hcov.1 (by omega) hseg1 h
      constructor
      · intro j hj
        exact hout1 j (by rcases hj with hj | hj; · omega
                          · right; omega)
      · rw [hG, seg_split]
        refine spansTile_append _ _ pos e e htile1 ?_
        rw [seg_congr (lo + groupCount r1) (groupCount r2)
          (fun k _ => hout1 (lo + groupCount r1 + k) (by omega)), hseg2]
        exact spansTile_replicate _ _
    · obtain ⟨hout2, htile2⟩ := ih2 (lo + groupCount r1) pos caps e c'
        hcov.2 (by omega) hseg2 h
      constructor
      · intro j hj
        exact hout2 j (by rcases hj with hj | hj; · omega
                          · right; omega)
      · rw [hG, seg_split]
        refine spansTile_append _ _ pos pos e ?_ htile2
        rw [seg_congr lo (groupCount r1)
          (fun k hk => hout2 (lo + k) (by omega)), hseg1]
        exact spansTile_replicate _ _
  | star g r ih =>
    intro lo pos caps e c' hcov
    exact absurd hcov (by simp [covered])
  | grp i r ih =>
    intro lo pos caps e c' hcov hlen hseg h
    simp only [covered, Bool.and_eq_true, decide_eq_true_eq] at hcov
    obtain ⟨hil, hg0⟩ := hcov
    simp only [mtch, List.mem_map] at h
    obtain ⟨⟨e1, c1⟩, hq, heq⟩ := h
    dsimp only at heq
    rw [Prod.mk.injEq] at heq
    obtain ⟨rfl, rfl⟩ := heq
    have hc1 : c1 = caps := mtch_groupFree s r hg0 pos caps e1 c1 hq
    have hG : groupCount (Regex.grp i r) = 1 := by simp [groupCount, hg0]
    rw [hG] at hlen ⊢
    rw [hil, hc1]
    constructor
    · intro j hj
      exact List.getElem?_set_ne (by omega)
    · rw [seg_set_self _ _ _ (by omega)]
      exact ⟨rfl, mtch_le s r pos _ e1 _ hq, rfl⟩
  | lookNeg r ih =>
    intro lo pos caps e c' hcov hlen hseg h
    simp only [covered, decide_eq_true_eq] at hcov
    simp only [mtch] at h
    split at h
    · simp only [List.mem_singleton, Prod.mk.injEq] at h
      obtain ⟨rfl, rfl⟩ := h
      have hG : groupCount (Regex.lookNeg r) = 0 := hcov
      rw [hG]
      exact ⟨fun _ _ => rfl, rfl⟩
    · exact absurd h (List.not_mem_nil _)
  | bol =>
    intro lo pos caps e c' _ _ _ h
    simp only [mtch] at h
    split at h
    · simp only [List.mem_singleton, Prod.mk.injEq] at h
      obtain ⟨rfl, rfl⟩ := h
      exact ⟨fun _ _ => rfl, rfl⟩
    · exact absurd h (List.not_mem_nil _)
  | wordB =>
    intro lo pos caps e c' _ _ _ h
    simp only [mtch] at h
    split at h
    · simp only [List.mem_singleton, Prod.mk.injEq] at h
      obtain ⟨rfl, rfl⟩ := h
      exact ⟨fun _ _ => rfl, rfl⟩
    · exact absurd h (List.not_mem_nil _)

/-! ### Slices and token tiling -/

theorem sliceOf_length (s : List Char) (a b : Nat) (h : b ≤ s.length) :
    (sliceOf s a b).length = b - a := by
  simp [sliceOf]
  omega

theorem sliceOf_full (s : List Char) : sliceOf s 0 s.length = s := by
  simp [sliceOf]

theorem sliceOf_empty (s : List Char) (a : Nat) : sliceOf s a a = [] := by
  simp [sliceOf]

theorem sliceOf_glue (s : List Char) (a b c : Nat) (hab : a ≤ b) (hbc : b ≤ c) :
    sliceOf s a b ++ sliceOf s b c = sliceOf s a c := by
  unfold sliceOf
  have hc : c - a = (b - a) + (c - b) := by omega
  rw [hc, List.take_add, List.drop_drop]
  have hb : a + (b - a) = b := by omega
  rw [hb]

theorem sliceOf_singleton (s : List Char) (pos : Nat) (h : pos < s.length) :
    sliceOf s pos (pos + 1) = [s.getD pos ' '] := by
  unfold sliceOf
  have h1 : pos + 1 - pos = 1 := by omega
  rw [h1, List.drop_eq_getElem_cons h, List.take_succ_cons, List.take_zero,
    List.getD_eq_getElem?_getD, List.getElem?_eq_getElem h]
  rfl

theorem tile_le (s : List Char) :
    ∀ toks pos e, tile s toks pos e → pos ≤ e := by
  intro toks
  induction toks with
  | nil => intro pos e h; exact le_of_eq h
  | cons t rest ih =>
    intro pos e h
    obtain ⟨_, _, _, hrest⟩ := h
    exact le_trans (by omega) (ih _ _ hrest)

theorem tile_append (s : List Char) :
    ∀ t1 t2 pos m e, tile s t1 pos m → tile s t2 m e →
      tile s (t1 ++ t2) pos e := by
  intro t1
  induction t1 with
  | nil =>
    intro t2 pos m e h1 h2
    cases h1
    exact h2
  | cons t rest ih =>
    intro t2 pos m e h1 h2
    obtain ⟨ho, hl, ht, hrest⟩ := h1
    exact ⟨ho, hl, ht, ih t2 _ m e hrest h2⟩

theorem tile_text (s : List Char) :
    ∀ toks pos e, e ≤ s.length → tile s toks pos e →
      tokensText toks = sliceOf s pos e := by
  intro toks
  induction toks with
  | nil =>
    intro pos e _ h
    cases h
    rw [tokensText, List.map_nil, List.flatten_nil, sliceOf_empty]
  | cons t rest ih =>
    intro pos e hub h
    obtain ⟨_, _, ht, hrest⟩ := h
    set n := t.text.length with hn
    have hm : pos + n ≤ e := tile_le s rest _ e hrest
    rw [tokensText, List.map_cons, List.flatten_cons]
    rw [show (List.map Token.text rest).flatten = tokensText rest from rfl]
    rw [ih _ e hub hrest, ht]
    exact sliceOf_glue s pos (pos + n) e (by omega) hm

theorem emitGroups_cons_none (s : List Char) (k : TokenKind)
    (ks : List TokenKind) (caps : Caps) :
    emitGroups s (k :: ks) (none :: caps) = emitGroups s ks caps := rfl

theorem emitGroups_cons_some (s : List Char) (k : TokenKind)
    (ks : List TokenKind) (caps : Caps) (a b : Nat) (hab : a < b) :
    emitGroups s (k :: ks) (some (a, b) :: caps) =
      ⟨a, k, sliceOf s a b⟩ :: emitGroups s ks caps := by
  unfold emitGroups
  rw [List.zip_cons_cons, List.filterMap_cons]
  simp [hab]

theorem emitGroups_cons_some_empty (s : List Char) (k : TokenKind)
    (ks : List TokenKind) (caps : Caps) (a b : Nat) (hab : ¬a < b) :
    emitGroups s (k :: ks) (some (a, b) :: caps) = emitGroups s ks caps := by
  unfold emitGroups
  rw [List.zip_cons_cons, List.filterMap_cons]
  simp [hab]

/-- `bygroups` emission of a tiling capture list yields tiling tokens. -/
theorem emitGroups_tile (s : List Char) :
    ∀ (caps : Caps) (ks : List TokenKind) (pos e : Nat),
      ks.length = caps.length → e ≤ s.length → spansTile caps pos e →
      tile s (emitGroups s ks caps) pos e := by
  intro caps
  induction caps with
  | nil =>
    intro ks pos e hk _ hsp
    rw [List.length_nil, List.length_eq_zero] at hk
    subst hk
    exact hsp
  | cons x rest ih =>
    intro ks pos e hk hub hsp
    match ks with
    | [] => exact absurd hk (by simp)
    | k :: krest =>
      rw [List.length_cons, List.length_cons, Nat.add_right_cancel_iff] at hk
      match x with
      | none =>
        rw [emitGroups_cons_none]
        exact ih krest pos e hk hub hsp
      | some (a, b) =>
        obtain ⟨ha, hab, hrest⟩ := hsp
        subst ha
        have hbe : b ≤ e := spansTile_le rest b e hrest
        by_cases hlt : a < b
        · rw [emitGroups_cons_some s k krest rest a b hlt]
          refine ⟨rfl, ?_, ?_, ?_⟩
          · rw [sliceOf_length s a b (by omega)]; omega
          · rw [sliceOf_length s a b (by omega)]
            have hb : a + (b - a) = b := by omega
            rw [hb]
          · rw [sliceOf_length s a b (by omega)]
            have hb : a + (b - a) = b := by omega
            rw [hb]
            exact ih krest b e hk hub hrest
        · rw [emitGroups_cons_some_empty s k krest rest a b hlt]
          have hba : b = a := by omega
          subst hba
          exact ih krest b e hk hub hrest

/-! ### Engine lemmas -/

theorem firstMatch_spec (s : List Char) :
    ∀ rs pos r e caps, firstMatch s rs pos = some (r, e, caps) →
      r ∈ rs ∧ (e, caps) ∈ mtch s r.pat pos
        (List.replicate (groupCount r.pat) none) := by
  intro rs
  induction rs with
  | nil => intro pos r e caps h; exact absurd h (by simp [firstMatch])
  | cons r0 rest ih =>
    intro pos r e caps h
    rw [firstMatch] at h
    rcases hm : ruleMatch s r0 pos with _ | ⟨pe, pc⟩ <;> rw [hm] at h
    · obtain ⟨h1, h2⟩ := ih pos r e caps h
      exact ⟨List.mem_cons_of_mem _ h1, h2⟩
    · have h' : some (r0, pe, pc) = some (r, e, caps) := h
      have h'' : (r0, pe, pc) = (r, e, caps) := by injection h'
      have hr : r0 = r := congrArg (fun q => q.1) h''
      have he : pe = e := congrArg (fun q => q.2.1) h''
      have hc : pc = caps := congrArg (fun q => q.2.2) h''
      subst hr; subst he; subst hc
      have hm' : (mtch s r0.pat pos
          (List.replicate (groupCount r0.pat) none)).head? = some (pe, pc) := hm
      exact ⟨List.mem_cons_self _ _,
        List.mem_of_mem_head? (Option.mem_def.mpr hm')⟩

theorem tableGet_mem {tbl : Table} {n : String} {r : Rule}
    (h : r ∈ tableGet tbl n) : ∃ rules, (n, rules) ∈ tbl ∧ r ∈ rules := by
  unfold tableGet at h
  rcases hf : tbl.find? (fun p => p.1 == n) with _ | ⟨p1, p2⟩ <;> rw [hf] at h
  · exact absurd h (by simp)
  · have h' : r ∈ p2 := h
    have hp1 : p1 = n := by
      have := List.find?_some hf
      simpa using this
    subst hp1
    exact ⟨p2, List.mem_of_find?_eq_some hf, h'⟩

theorem tableOK_rule {tbl : Table} (h : tableOK tbl = true) {n : String}
    {rules : List Rule} {r : Rule} (hm : (n, rules) ∈ tbl) (hr : r ∈ rules) :
    ruleOK n r = true := by
  rw [tableOK, List.all_eq_true] at h
  have := h _ hm
  rw [List.all_eq_true] at this
  exact this _ hr

theorem ruleOK_nullable {n : String} {r : Rule} (h : ruleOK n r = true)
    (hn : nullable r.pat = true) :
    r.act = none ∧ r.op = StateOp.pop ∧ n ≠ "root" := by
  rw [ruleOK, hn] at h
  simp only [Bool.not_true, Bool.false_or, Bool.and_eq_true,
    Option.isNone_iff_eq_none, decide_eq_true_eq, bne_iff_ne] at h
  exact ⟨h.1.1.1.1, h.1.1.1.2, h.1.1.2⟩

theorem ruleOK_none {n : String} {r : Rule} (h : ruleOK n r = true)
    (ha : r.act = none) : zeroWidth r.pat = true := by
  rw [ruleOK, ha] at h
  simp only [Option.isSome_none, Bool.false_or, Bool.and_eq_true] at h
  exact h.1.2

theorem ruleOK_byGroups {n : String} {r : Rule} {ks : List TokenKind}
    (h : ruleOK n r = true) (ha : r.act = some (.byGroups ks)) :
    covered r.pat 0 = true ∧ ks.length = groupCount r.pat := by
  rw [ruleOK, ha] at h
  simp only [Bool.and_eq_true, decide_eq_true_eq] at h
  exact h.2

theorem applyOp_ne_nil (op : StateOp) (st : List String) (h : st ≠ []) :
    applyOp op st ≠ [] := by
  cases op with
  | stay => exact h
  | push n => simp [applyOp]
  | pushTop => simp [applyOp]
  | pop =>
    match st with
    | [] => exact absurd rfl h
    | [x] => simp [applyOp]
    | a :: b :: t => simp [applyOp]

theorem applyOp_getLast? (op : StateOp) (st : List String) (h : st ≠ [])
    {n : String} (hl : st.getLast? = some n) :
    (applyOp op st).getLast? = some n := by
  cases op with
  | stay => exact hl
  | push m =>
    show (m :: st).getLast? = some n
    rw [List.getLast?_cons, hl]
    rfl
  | pushTop =>
    show (st.headD "root" :: st).getLast? = some n
    rw [List.getLast?_cons, hl]
    rfl
  | pop =>
    match st with
    | [] => exact absurd rfl h
    | [x] => exact hl
    | a :: b :: t =>
      show (b :: t).getLast? = some n
      rwa [List.getLast?_cons_cons] at hl

theorem applyOp_length (op : StateOp) (st : List String) :
    (applyOp op st).length ≤ st.length + 1 := by
  cases op with
  | stay => simp [applyOp]
  | push n => simp [applyOp]
  | pushTop => simp [applyOp]
  | pop =>
    match st with
    | [] => simp [applyOp]
    | [x] => simp [applyOp]
    | a :: b :: t => simp [applyOp]

theorem applyOp_pop_length (st : List String) (h : 2 ≤ st.length) :
    (applyOp StateOp.pop st).length + 1 = st.length := by
  match st with
  | [] => simp at h
  | [x] => simp at h
  | a :: b :: t => simp [applyOp]

/-- Main engine invariant: with enough fuel, a run over a well-formed table,
on a non-empty stack with `root` at the bottom, emits tokens that tile the
rest of the input exactly. -/
theorem runAux_tile (tbl : Table) (hok : tableOK tbl = true) (s : List Char) :
    ∀ f pos stack, pos ≤ s.length →
      2 * (s.length - pos) + stack.length ≤ f →
      stack ≠ [] → stack.getLast? = some "root" →
      tile s (runAux tbl s f pos stack).1 pos s.length := by
  intro f
  induction f with
  | zero =>
    intro pos stack _ hf hne _
    have := List.length_pos.mpr hne
    omega
  | succ f ih =>
    intro pos stack hp hf hne hroot
    by_cases hlt : pos < s.length
    · have hrw : (runAux tbl s (f + 1) pos stack).1 =
          (step tbl s pos stack).1 ++
            (runAux tbl s f (step tbl s pos stack).2.1
              (step tbl s pos stack).2.2).1 := by
        rw [runAux, if_pos hlt]
      rw [hrw]
      rcases hfm : firstMatch s (tableGet tbl (topState stack)) pos
        with _ | ⟨r, e, caps⟩
      · -- no rule matches: one-character fallback token
        have hstep : step tbl s pos stack =
            ([⟨pos, .error, [s.getD pos ' ']⟩], pos + 1, stack) := by
          rw [step, hfm]
        rw [hstep]
        refine tile_append s _ _ pos (pos + 1) s.length ?_ ?_
        · refine ⟨rfl, by simp, ?_, ?_⟩
          · simp [sliceOf_singleton s pos hlt]
          · simp only [List.length_cons, List.length_nil]
            rfl
        · exact ih (pos + 1) stack (by omega) (by omega) hne hroot
      · have hstep : step tbl s pos stack =
            (emitAct s pos e caps r.act, e, applyOp r.op stack) := by
          rw [step, hfm]
        rw [hstep]
        obtain ⟨hrin, hmem⟩ := firstMatch_spec s _ pos r e caps hfm
        obtain ⟨rules, htin, hrin'⟩ := tableGet_mem hrin
        have hrOK : ruleOK (topState stack) r = true :=
          tableOK_rule hok htin hrin'
        have hle : pos ≤ e := mtch_le s r.pat pos _ e caps hmem
        have hub : e ≤ s.length := mtch_ub s r.pat pos _ e caps hp hmem
        by_cases hee : e = pos
        · -- zero-width match: a default pseudo-rule, pops an auxiliary state
          subst hee
          have hnul : nullable r.pat = true := by
            by_contra hn
            have := mtch_consume s r.pat (Bool.not_eq_true _ ▸ hn)
              e _ e caps hmem
            omega
          obtain ⟨hact, hop, hnroot⟩ := ruleOK_nullable hrOK hnul
          rw [hact, hop]
          have hlen2 : 2 ≤ stack.length := by
            match stack, hne with
            | [x], _ =>
              exfalso
              apply hnroot
              have : x = "root" := by simpa using hroot
              simp [topState, this]
            | a :: b :: t, _ => simp
          have hlenpop := applyOp_pop_length stack hlen2
          show tile s ([] ++ (runAux tbl s f e (applyOp StateOp.pop stack)).1)
            e s.length
          rw [List.nil_append]
          exact ih e (applyOp StateOp.pop stack) hp (by omega)
            (applyOp_ne_nil _ _ hne) (applyOp_getLast? _ _ hne hroot)
        · have hlt' : pos < e := by omega
          refine tile_append s _ _ pos e s.length ?_ ?_
          · -- the emitted tokens tile the match span
            rcases hact : r.act with _ | a
            · exact absurd (mtch_zeroWidth s r.pat (ruleOK_none hrOK hact)
                pos _ e caps hmem) (by omega)
            · rcases a with k | ks
              · show tile s [⟨pos, k, sliceOf s pos e⟩] pos e
                refine ⟨rfl, ?_, ?_, ?_⟩
                · rw [sliceOf_length s pos e hub]; omega
                · rw [sliceOf_length s pos e hub]
                  have hb : pos + (e - pos) = e := by omega
                  rw [hb]
                · rw [sliceOf_length s pos e hub]
                  have hb : pos + (e - pos) = e := by omega
                  rw [hb]
                  rfl
              · obtain ⟨hcov, hkl⟩ := ruleOK_byGroups hrOK hact
                have hclen : caps.length = groupCount r.pat := by
                  rw [mtch_capsLen s r.pat pos _ e caps hmem,
                    List.length_replicate]
                have hT := mtch_covered s r.pat 0 pos _ e caps hcov
                  (by rw [List.length_replicate]; omega)
                  (seg_replicate _ 0 _ (by omega)) hmem
                have hsp : spansTile caps pos e := by
                  have hseg : seg caps 0 (groupCount r.pat) = caps := by
                    rw [seg, List.drop_zero, ← hclen, List.take_length]
                  rw [← hseg]
                  exact hT.2
                exact emitGroups_tile s caps ks pos e
                  (by rw [hkl, hclen]) hub hsp
          · -- and the rest of the run tiles the remainder
            have hal := applyOp_length r.op stack
            exact ih e (applyOp r.op stack) hub (by omega)
              (applyOp_ne_nil _ _ hne) (applyOp_getLast? _ _ hne hroot)
    · have hrw : (runAux tbl s (f + 1) pos stack).1 = [] := by
        rw [runAux, if_neg hlt]
      rw [hrw]
      show pos = s.length
      omega

/-- Total coverage for any well-formed table: the tokens of a run from
`[root]` tile the whole input. -/
theorem tokenize_tile (tbl : Table) (hok : tableOK tbl = true)
    (s : List Char) : tile s (tokenize tbl s) 0 s.length := by
  exact runAux_tile tbl hok s (2 * s.length + 2) 0 ["root"] (by omega)
    (by simp only [List.length_singleton]; omega) (by simp) rfl

/-- Concatenating the token texts reconstructs the input. -/
theorem tokenize_text (tbl : Table) (hok : tableOK tbl = true)
    (s : List Char) : tokensText (tokenize tbl s) = s := by
  rw [tile_text s _ 0 s.length le_rfl (tokenize_tile tbl hok s), sliceOf_full]

/-- The stack after one engine step: never emptied, bottom preserved. -/
theorem step_stack (tbl : Table) (s : List Char) (pos : Nat)
    (stack : List String) (hne : stack ≠ []) :
    (step tbl s pos stack).2.2 ≠ [] ∧
      (∀ n, stack.getLast? = some n →
        ((step tbl s pos stack).2.2).getLast? = some n) := by
  rcases hfm : firstMatch s (tableGet tbl (topState stack)) pos
    with _ | ⟨r, e, caps⟩
  · have hstep : step tbl s pos stack =
        ([⟨pos, .error, [s.getD pos ' ']⟩], pos + 1, stack) := by
      rw [step, hfm]
    rw [hstep]
    exact ⟨hne, fun n h => h⟩
  · have hstep : step tbl s pos stack =
        (emitAct s pos e caps r.act, e, applyOp r.op stack) := by
      rw [step, hfm]
    rw [hstep]
    exact ⟨applyOp_ne_nil _ _ hne, fun n h => applyOp_getLast? _ _ hne h⟩

/-- Every stack in the visited-stack trace of a run is non-empty and keeps
`root` at the bottom (for any table and fuel). -/
theorem runAux_stacks (tbl : Table) (s : List Char) :
    ∀ f pos stack, stack ≠ [] → stack.getLast? = some "root" →
      ∀ st ∈ (runAux tbl s f pos stack).2,
        st ≠ [] ∧ st.getLast? = some "root" := by
  intro f
  induction f with
  | zero =>
    intro pos stack hne hroot st hst
    have : st = stack := by simpa [runAux] using hst
    exact this ▸ ⟨hne, hroot⟩
  | succ f ih =>
    intro pos stack hne hroot st hst
    by_cases hlt : pos < s.length
    · have hrw : (runAux tbl s (f + 1) pos stack).2 =
          stack :: (runAux tbl s f (step tbl s pos stack).2.1
            (step tbl s pos stack).2.2).2 := by
        rw [runAux, if_pos hlt]
      rw [hrw, List.mem_cons] at hst
      rcases hst with rfl | hst
      · exact ⟨hne, hroot⟩
      · obtain ⟨hne', hpres⟩ := step_stack tbl s pos stack hne
        exact ih _ _ hne' (hpres _ hroot) st hst
    · have hrw : (runAux tbl s (f + 1) pos stack).2 = [stack] := by
        rw [runAux, if_neg hlt]
      rw [hrw, List.mem_singleton] at hst
      exact hst ▸ ⟨hne, hroot⟩

/-! ### Failing-rule analysis (`zwAt` / `noMatch`) -/

theorem mtch_cls_key (s : List Char) (p : Char → Bool) (pos : Nat)
    (caps : Caps) :
    mtch s (Regex.cls p) pos caps =
      match s.get? pos with
      | some ch => if p ch then [(pos + 1, caps)] else []
      | none => [] := rfl

theorem mtch_seq_key (s : List Char) (r1 r2 : Regex) (pos : Nat)
    (caps : Caps) :
    mtch s (Regex.seq r1 r2) pos caps =
      (mtch s r1 pos caps).flatMap (fun q => mtch s r2 q.1 q.2) := rfl

theorem mtch_star_key (s : List Char) (g : Bool) (r : Regex) (pos : Nat)
    (caps : Caps) :
    mtch s (Regex.star g r) pos caps =
      mstarAux (mtch s r) g (s.length + 1) pos caps := rfl

/-- Zero-width analysis is sound: under `zwAt r c`, a match at a position
holding `c` ends where it starts. -/
theorem zwAt_spec (s : List Char) (c : Char) :
    ∀ r pos caps, s.get? pos = some c → zwAt r c = true →
      ∀ e c', (e, c') ∈ mtch s r pos caps → e = pos := by
  intro r
  induction r with
  | eps =>
    intro pos caps _ _ e c' h
    simp only [mtch, List.mem_singleton, Prod.mk.injEq] at h
    exact h.1
  | cls p =>
    intro pos caps hg hz e c' h
    obtain ⟨⟨c0, hg0, hp0⟩, rfl, rfl⟩ := mem_mtch_cls.mp h
    rw [hg] at hg0
    injection hg0 with hc0
    subst hc0
    rw [zwAt] at hz
    simp only [Bool.not_eq_true'] at hz
    rw [hz] at hp0
    exact absurd hp0 (by simp)
  | seq r1 r2 ih1 ih2 =>
    intro pos caps hg hz e c' h
    rw [zwAt, Bool.and_eq_true] at hz
    rw [mtch_seq_key, List.mem_flatMap] at h
    obtain ⟨⟨e1, c1⟩, hq, h2⟩ := h
    have he1 : e1 = pos := ih1 pos caps hg hz.1 e1 c1 hq
    subst he1
    exact ih2 e1 c1 hg hz.2 e c' h2
  | alt r1 r2 ih1 ih2 =>
    intro pos caps hg hz e c' h
    rw [zwAt, Bool.and_eq_true] at hz
    simp only [mtch, List.mem_append] at h
    rcases h with h | h
    · exact ih1 pos caps hg hz.1 e c' h
    · exact ih2 pos caps hg hz.2 e c' h
  | star g r ih =>
    intro pos caps hg hz e c' h
    rw [zwAt] at hz
    rw [mtch_star_key] at h
    refine mstarAux_rec (fun p1 _ e _ => p1 = pos → e = pos) ?_ ?_
      (s.length + 1) pos caps e c' h rfl
    · exact fun _ _ hp => hp
    · intro p1 c1 e1 c2 e2 c3 hmem hlt _ hp
      subst hp
      exact absurd (ih p1 c1 hg hz e1 c2 hmem) (by omega)
  | grp i r ih =>
    intro pos caps hg hz e c' h
    simp only [mtch, List.mem_map] at h
    obtain ⟨⟨e1, c1⟩, hq, heq⟩ := h
    rw [Prod.mk.injEq] at heq
    exact heq.1 ▸ ih pos caps hg hz e1 c1 hq
  | lookNeg r ih =>
    intro pos caps _ _ e c' h
    simp only [mtch] at h
    split at h
    · simp only [List.mem_singleton, Prod.mk.injEq] at h
      exact h.1
    · exact absurd h (List.not_mem_nil _)
  | bol =>
    intro pos caps _ _ e c' h
    simp only [mtch] at h
    split at h
    · simp only [List.mem_singleton, Prod.mk.injEq] at h
      exact h.1
    · exact absurd h (List.not_mem_nil _)
  | wordB =>
    intro pos caps _ _ e c' h
    simp only [mtch] at h
    split at h
    · simp only [List.mem_singleton, Prod.mk.injEq] at h
      exact h.1
    · exact absurd h (List.not_mem_nil _)

/-- `noMatch` analysis is sound: under `noMatch r c`, `r` has no match at a
position holding `c`. -/
theorem noMatch_spec (s : List Char) (c : Char) :
    ∀ r pos caps, s.get? pos = some c → noMatch r c = true →
      mtch s r pos caps = [] := by
  intro r
  induction r with
  | eps => intro pos caps _ hn; exact absurd hn (by simp [noMatch])
  | cls p =>
    intro pos caps hg hn
    rw [noMatch] at hn
    simp only [Bool.not_eq_true'] at hn
    rw [mtch_cls_key, hg]
    show (if p c then [(pos + 1, caps)] else []) = []
    rw [if_neg (by rw [hn]; simp)]
  | seq r1 r2 ih1 ih2 =>
    intro pos caps hg hn
    rw [noMatch, Bool.or_eq_true] at hn
    rw [mtch_seq_key]
    rcases hn with hn | hn
    · rw [ih1 pos caps hg hn, List.flatMap_nil]
    · rw [Bool.and_eq_true] at hn
      rw [List.eq_nil_iff_forall_not_mem]
      intro x hx
      rw [List.mem_flatMap] at hx
      obtain ⟨⟨e1, c1⟩, hq, h2⟩ := hx
      have he1 : e1 = pos := zwAt_spec s c r1 pos caps hg hn.1 e1 c1 hq
      subst he1
      rw [ih2 e1 c1 hg hn.2] at h2
      exact absurd h2 (List.not_mem_nil _)
  | alt r1 r2 ih1 ih2 =>
    intro pos caps hg hn
    rw [noMatch, Bool.and_eq_true] at hn
    show mtch s r1 pos caps ++ mtch s r2 pos caps = []
    rw [ih1 pos caps hg hn.1, ih2 pos caps hg hn.2, List.append_nil]
  | star g r ih => intro pos caps _ hn; exact absurd hn (by simp [noMatch])
  | grp i r ih =>
    intro pos caps hg hn
    show (mtch s r pos caps).map _ = []
    rw [ih pos caps hg hn, List.map_nil]
  | lookNeg r ih => intro pos caps _ hn; exact absurd hn (by simp [noMatch])
  | bol => intro pos caps _ hn; exact absurd hn (by simp [noMatch])
  | wordB => intro pos caps _ hn; exact absurd hn (by simp [noMatch])

/-- A rule whose pattern passes the `noMatch` check does not fire. -/
theorem ruleMatch_noMatch {s : List Char} {r : Rule} {pos : Nat} {c : Char}
    (hg : s.get? pos = some c) (hn : noMatch r.pat c = true) :
    ruleMatch s r pos = none := by
  unfold ruleMatch
  rw [noMatch_spec s c r.pat pos _ hg hn]
  rfl

/-- Skipping an initial segment of non-matching rules. -/
theorem firstMatch_append_none (s : List Char) :
    ∀ (l1 l2 : List Rule) (pos : Nat),
      (∀ r ∈ l1, ruleMatch s r pos = none) →
      firstMatch s (l1 ++ l2) pos = firstMatch s l2 pos := by
  intro l1
  induction l1 with
  | nil => intro l2 pos _; rw [List.nil_append]
  | cons r0 rest ih =>
    intro l2 pos hall
    rw [List.cons_append, firstMatch, hall r0 (List.mem_cons_self _ _)]
    exact ih l2 pos (fun r hr => hall r (List.mem_cons_of_mem _ hr))

/-- A star whose body fails at the current position only matches empty. -/
theorem mstarAux_body_nil {m : Nat → Caps → List (Nat × Caps)} {g : Bool}
    {f pos : Nat} {caps : Caps} (h : m pos caps = []) :
    mstarAux m g (f + 1) pos caps = [(pos, caps)] := by
  cases g <;> simp [mstarAux, h]

/-- A greedy star over a character class that holds on the whole remaining
input greedily consumes to the end of input first. -/
theorem mstarAux_all (s : List Char) (p : Char → Bool) :
    ∀ (f pos : Nat) (caps : Caps),
      (∀ j, pos ≤ j → j < s.length →
        ∃ cj, s.get? j = some cj ∧ p cj = true) →
      s.length ≤ pos + f → pos ≤ s.length →
      (mstarAux (mtch s (Regex.cls p)) true f pos caps).head? =
        some (s.length, caps) := by
  intro f
  induction f with
  | zero =>
    intro pos caps _ hf hp
    have hpos : pos = s.length := by omega
    subst hpos
    rfl
  | succ f ih =>
    intro pos caps hall hf hp
    by_cases hpos : pos < s.length
    · obtain ⟨c0, hg, hpc⟩ := hall pos le_rfl hpos
      have hbody : mtch s (Regex.cls p) pos caps = [(pos + 1, caps)] := by
        rw [mtch_cls_key, hg]
        show (if p c0 then [(pos + 1, caps)] else []) = _
        rw [if_pos hpc]
      have hcont : ((mtch s (Regex.cls p) pos caps).filter
            (fun q => pos < q.1)).flatMap
            (fun q => mstarAux (mtch s (Regex.cls p)) true f q.1 q.2) =
          mstarAux (mtch s (Regex.cls p)) true f (pos + 1) caps := by
        rw [hbody]
        simp
      have hrw : mstarAux (mtch s (Regex.cls p)) true (f + 1) pos caps =
          mstarAux (mtch s (Regex.cls p)) true f (pos + 1) caps ++
            [(pos, caps)] := by
        rw [mstarAux, if_pos rfl, hcont]
      rw [hrw, List.head?_append,
        ih (pos + 1) caps (fun j hj hjl => hall j (by omega) hjl)
          (by omega) (by omega)]
      rfl
    · have hbody : mtch s (Regex.cls p) pos caps = [] := by
        rw [mtch_cls_key, List.get?_eq_none.mpr (by omega)]
      rw [mstarAux_body_nil hbody]
      have hpos' : pos = s.length := by omega
      rw [hpos']
      rfl

/-- A matching rule at the head of the list wins. -/
theorem firstMatch_cons_some {s : List Char} {r : Rule} {rest : List Rule}
    {pos e : Nat} {caps : Caps} (h : ruleMatch s r pos = some (e, caps)) :
    firstMatch s (r :: rest) pos = some (r, e, caps) := by
  rw [firstMatch, h]

/-- Monkey's hex rule: a `$` followed by any non-empty run of characters
from `[0-9a-fA-Z]`, as the whole input, lexes to one `Number.Hex` token. -/
theorem monkey_hex_run (t : List Char) (hne : t ≠ [])
    (hall : ∀ c ∈ t, monkey_hex_digit c = true) :
    tokenize monkey_tokens ('$' :: t) = [⟨0, .numberHex, '$' :: t⟩] := by
  obtain ⟨c0, t0, rfl⟩ : ∃ c0 t0, t = c0 :: t0 := by
    cases t with
    | nil => exact absurd rfl hne
    | cons a l => exact ⟨a, l, rfl⟩
  set s : List Char := '$' :: c0 :: t0 with hs
  have hlen : 2 ≤ s.length := by simp [hs]
  -- the nine rules before the hex rule do not fire on '$'
  have hg0 : s.get? 0 = some '$' := rfl
  have hskip : ∀ r ∈ monkey_root.take 9, ruleMatch s r 0 = none := by
    have hall9 : (monkey_root.take 9).all
        (fun r => noMatch r.pat '$') = true := by decide
    rw [List.all_eq_true] at hall9
    intro r hr
    exact ruleMatch_noMatch hg0 (hall9 r hr)
  -- the hex rule matches the whole input
  have hhex : ruleMatch s monkey_hex_rule 0 = some (s.length, []) := by
    show (mtch s monkey_hex_rule.pat 0 []).head? = some (s.length, [])
    have h1 : mtch s (rchr false '$') 0 [] = [(1, [])] := by
      rw [show rchr false '$' = Regex.cls (fun d =>
        d = '$' || (false && d.toLower = '$'.toLower)) from rfl]
      rw [mtch_cls_key, hg0]
      show (if ('$' = '$' || (false && '$'.toLower = '$'.toLower))
        then [(0 + 1, ([] : Caps))] else []) = _
      rw [if_pos (by decide)]
    have hg1 : s.get? 1 = some c0 := rfl
    have h2 : mtch s (Regex.cls monkey_hex_digit) 1 [] = [(2, [])] := by
      rw [mtch_cls_key, hg1]
      show (if monkey_hex_digit c0 then [(1 + 1, ([] : Caps))] else []) = _
      rw [if_pos (hall c0 (List.mem_cons_self _ _))]
    have h3 : mtch s monkey_hex_rule.pat 0 [] =
        mstarAux (mtch s (Regex.cls monkey_hex_digit)) true (s.length + 1)
          2 [] := by
      show mtch s (Regex.seq (rchr false '$')
        (rplus (Regex.cls monkey_hex_digit))) 0 [] = _
      rw [mtch_seq_key, h1, List.flatMap_cons, List.flatMap_nil,
        List.append_nil]
      show mtch s (Regex.seq (Regex.cls monkey_hex_digit)
        (Regex.star true (Regex.cls monkey_hex_digit))) 1 [] = _
      rw [mtch_seq_key, h2, List.flatMap_cons, List.flatMap_nil,
        List.append_nil]
      rw [mtch_star_key]
    rw [h3]
    apply mstarAux_all
    · intro j hj hjl
      obtain ⟨i, rfl⟩ : ∃ i, j = i + 2 := ⟨j - 2, by omega⟩
      have hi : i < t0.length := by simp [hs] at hjl; omega
      refine ⟨t0.get ⟨i, hi⟩, ?_, ?_⟩
      · show t0.get? i = some _
        exact List.get?_eq_get hi
      · exact hall _ (List.mem_cons_of_mem _ (t0.get_mem _ _))
    · omega
    · omega
  -- assemble the run: one step consumes everything
  have hfm : firstMatch s monkey_root 0 = some (monkey_hex_rule, s.length, []) := by
    have hsplit : firstMatch s monkey_root 0 =
        firstMatch s (monkey_root.take 9 ++ monkey_root.drop 9) 0 := by
      rw [List.take_append_drop]
    rw [hsplit, firstMatch_append_none s _ _ 0 hskip]
    rw [show monkey_root.drop 9 = monkey_hex_rule :: monkey_root.drop 10
      from rfl]
    exact firstMatch_cons_some hhex
  have hstep : step monkey_tokens s 0 ["root"] =
      ([⟨0, .numberHex, s⟩], s.length, ["root"]) := by
    rw [step]
    rw [show tableGet monkey_tokens (topState ["root"]) = monkey_root from rfl]
    rw [hfm]
    show (emitAct s 0 s.length [] (some (.tok .numberHex)), s.length,
      applyOp .stay ["root"]) = _
    rw [show emitAct s 0 s.length [] (some (.tok .numberHex)) =
      [⟨0, .numberHex, sliceOf s 0 s.length⟩] from rfl]
    rw [sliceOf_full]
    rfl
  have hfuel : 2 * s.length + 2 = (2 * s.length + 1) + 1 := rfl
  rw [tokenize, tokenizeFrom, hfuel]
  have hrw : (runAux monkey_tokens s (2 * s.length + 1 + 1) 0 ["root"]).1 =
      (step monkey_tokens s 0 ["root"]).1 ++
        (runAux monkey_tokens s (2 * s.length + 1)
          (step monkey_tokens s 0 ["root"]).2.1
          (step monkey_tokens s 0 ["root"]).2.2).1 := by
    rw [runAux, if_pos (by omega)]
  rw [hrw, hstep]
  have hstop : (runAux monkey_tokens s (2 * s.length + 1) s.length
      ["root"]).1 = [] := by
    rw [runAux, if_neg (by omega)]
  rw [hstop, List.append_nil]

theorem get?_lt {s : List Char} {pos : Nat} {c : Char}
    (h : s.get? pos = some c) : pos < s.length := by
  by_contra hge
  rw [List.get?_eq_none.mpr (by omega)] at h
  exact absurd h (by simp)

theorem getD_of_get? {s : List Char} {pos : Nat} {c : Char}
    (h : s.get? pos = some c) : s.getD pos ' ' = c := by
  rw [List.getD_eq_getElem?_getD, ← List.get?_eq_getElem?, h]
  rfl

/-- In Monkey's `classname` state, a `<` at the current offset fires the
`(r'<', Punctuation, '#push')` rule: one `Punctuation` token for the `<`
and one more `classname` frame pushed onto the stack. -/
theorem classname_step_open (s : List Char) (pos : Nat) (rest : List String)
    (hg : s.get? pos = some '<') :
    step monkey_tokens s pos ("classname" :: rest) =
      ([⟨pos, .punctuation, ['<']⟩], pos + 1,
        "classname" :: "classname" :: rest) := by
  rw [step]
  rw [show tableGet monkey_tokens (topState ("classname" :: rest)) =
    monkey_classname from rfl]
  have hskip : ∀ r ∈ monkey_classname.take 5, ruleMatch s r pos = none := by
    have h5 : (monkey_classname.take 5).all
        (fun r => noMatch r.pat '<') = true := by decide
    rw [List.all_eq_true] at h5
    exact fun r hr => ruleMatch_noMatch hg (h5 r hr)
  have hm5 : ruleMatch s (⟨rchr false '<', false,
      some (.tok .punctuation), .pushTop⟩ : Rule) pos = some (pos + 1, []) := by
    show (mtch s (rchr false '<') pos []).head? = _
    rw [show rchr false '<' = Regex.cls (fun d =>
      d = '<' || (false && d.toLower = '<'.toLower)) from rfl,
      mtch_cls_key, hg]
    show (if ('<' = '<' || (false && '<'.toLower = '<'.toLower))
      then [(pos + 1, ([] : Caps))] else []).head? = _
    rw [if_pos (by decide)]
    rfl
  have hfm : firstMatch s monkey_classname pos =
      some (⟨rchr false '<', false, some (.tok .punctuation), .pushTop⟩,
        pos + 1, []) := by
    have hsp : firstMatch s monkey_classname pos =
        firstMatch s (monkey_classname.take 5 ++ monkey_classname.drop 5)
          pos := by
      rw [List.take_append_drop]
    rw [hsp, firstMatch_append_none s _ _ pos hskip,
      show monkey_classname.drop 5 = (⟨rchr false '<', false,
        some (.tok .punctuation), .pushTop⟩ : Rule) ::
        monkey_classname.drop 6 from rfl]
    exact firstMatch_cons_some hm5
  rw [hfm]
  show (emitAct s pos (pos + 1) [] (some (.tok .punctuation)), pos + 1,
    applyOp StateOp.pushTop ("classname" :: rest)) = _
  rw [show emitAct s pos (pos + 1) [] (some (.tok .punctuation)) =
    [⟨pos, .punctuation, sliceOf s pos (pos + 1)⟩] from rfl]
  rw [sliceOf_singleton s pos (get?_lt hg), getD_of_get? hg]
  rfl

/-- In Monkey's `classname` state, a `>` at the current offset fires the
`(r'>', Punctuation, '#pop')` rule: one `Punctuation` token for the `>` and
one `classname` frame popped from the stack. -/
theorem classname_step_close (s : List Char) (pos : Nat) (rest : List String)
    (hne : rest ≠ []) (hg : s.get? pos = some '>') :
    step monkey_tokens s pos ("classname" :: rest) =
      ([⟨pos, .punctuation, ['>']⟩], pos + 1, rest) := by
  obtain ⟨r1, rest', rfl⟩ : ∃ r1 rest', rest = r1 :: rest' := by
    cases rest with
    | nil => exact absurd rfl hne
    | cons a l => exact ⟨a, l, rfl⟩
  rw [step]
  rw [show tableGet monkey_tokens (topState ("classname" :: r1 :: rest')) =
    monkey_classname from rfl]
  have hskip : ∀ r ∈ monkey_classname.take 6, ruleMatch s r pos = none := by
    have h6 : (monkey_classname.take 6).all
        (fun r => noMatch r.pat '>') = true := by decide
    rw [List.all_eq_true] at h6
    exact fun r hr => ruleMatch_noMatch hg (h6 r hr)
  have hm6 : ruleMatch s (⟨rchr false '>', false,
      some (.tok .punctuation), .pop⟩ : Rule) pos = some (pos + 1, []) := by
    show (mtch s (rchr false '>') pos []).head? = _
    rw [show rchr false '>' = Regex.cls (fun d =>
      d = '>' || (false && d.toLower = '>'.toLower)) from rfl,
      mtch_cls_key, hg]
    show (if ('>' = '>' || (false && '>'.toLower = '>'.toLower))
      then [(pos + 1, ([] : Caps))] else []).head? = _
    rw [if_pos (by decide)]
    rfl
  have hfm : firstMatch s monkey_classname pos =
      some (⟨rchr false '>', false, some (.tok .punctuation), .pop⟩,
        pos + 1, []) := by
    have hsp : firstMatch s monkey_classname pos =
        firstMatch s (monkey_classname.take 6 ++ monkey_classname.drop 6)
          pos := by
      rw [List.take_append_drop]
    rw [hsp, firstMatch_append_none s _ _ pos hskip,
      show monkey_classname.drop 6 = (⟨rchr false '>', false,
        some (.tok .punctuation), .pop⟩ : Rule) ::
        monkey_classname.drop 7 from rfl]
    exact firstMatch_cons_some hm6
  rw [hfm]
  show (emitAct s pos (pos + 1) [] (some (.tok .punctuation)), pos + 1,
    applyOp StateOp.pop ("classname" :: r1 :: rest')) = _
  rw [show emitAct s pos (pos + 1) [] (some (.tok .punctuation)) =
    [⟨pos, .punctuation, sliceOf s pos (pos + 1)⟩] from rfl]
  rw [sliceOf_singleton s pos (get?_lt hg), getD_of_get? hg]
  rfl

/-- In Monkey's `classname` state, when none of the eight earlier rules
matches at the current offset, the trailing `default('#pop')` pseudo-rule
applies: no token, no consumption, one pop. -/
theorem classname_default_step (s : List Char) (pos : Nat)
    (rest : List String)
    (hfail : ∀ r ∈ monkey_classname.dropLast, ruleMatch s r pos = none) :
    step monkey_tokens s pos ("classname" :: rest) =
      ([], pos, applyOp StateOp.pop ("classname" :: rest)) := by
  rw [step, show tableGet monkey_tokens (topState ("classname" :: rest)) =
    monkey_classname from rfl]
  have hsp : firstMatch s monkey_classname pos =
      firstMatch s (monkey_classname.dropLast ++
        [⟨Regex.eps, false, none, StateOp.pop⟩]) pos := rfl
  rw [hsp, firstMatch_append_none s _ _ pos hfail]
  rw [show firstMatch s [(⟨Regex.eps, false, none, StateOp.pop⟩ : Rule)] pos =
    some (⟨Regex.eps, false, none, StateOp.pop⟩, pos, []) from rfl]
  rfl

/-- Same for Monkey's `variables` state: its trailing `default('#pop')`
pseudo-rule applies when none of the six earlier rules matches. -/
theorem variables_default_step (s : List Char) (pos : Nat)
    (rest : List String)
    (hfail : ∀ r ∈ monkey_variables.dropLast, ruleMatch s r pos = none) :
    step monkey_tokens s pos ("variables" :: rest) =
      ([], pos, applyOp StateOp.pop ("variables" :: rest)) := by
  rw [step, show tableGet monkey_tokens (topState ("variables" :: rest)) =
    monkey_variables from rfl]
  have hsp : firstMatch s monkey_variables pos =
      firstMatch s (monkey_variables.dropLast ++
        [⟨Regex.eps, false, none, StateOp.pop⟩]) pos := rfl
  rw [hsp, firstMatch_append_none s _ _ pos hfail]
  rw [show firstMatch s [(⟨Regex.eps, false, none, StateOp.pop⟩ : Rule)] pos =
    some (⟨Regex.eps, false, none, StateOp.pop⟩, pos, []) from rfl]
  rfl

/-! ### The claims -/

/-- C1: for every input string and each of the three language tables
(BlitzMax, BlitzBasic, Monkey), the emitted tokens exactly tile the input —
offsets strictly increasing, non-overlapping and contiguous from offset 0
to the end of input, every token text the matching substring — and
concatenating the token texts in emission order reconstructs the original
input string. -/
theorem C1_total_coverage :
    (∀ s : List Char, tile s (tokenize bmax_tokens s) 0 s.length ∧
      tokensText (tokenize bmax_tokens s) = s) ∧
    (∀ s : List Char, tile s (tokenize bb_tokens s) 0 s.length ∧
      tokensText (tokenize bb_tokens s) = s) ∧
    (∀ s : List Char, tile s (tokenize monkey_tokens s) 0 s.length ∧
      tokensText (tokenize monkey_tokens s) = s) :=
  ⟨fun s => ⟨tokenize_tile _ (by decide) s, tokenize_text _ (by decide) s⟩,
   fun s => ⟨tokenize_tile _ (by decide) s, tokenize_text _ (by decide) s⟩,
   fun s => ⟨tokenize_tile _ (by decide) s, tokenize_text _ (by decide) s⟩⟩

/-- C2: for every input and each of the three tables, every state stack
visited during a run (initialized to `[root]`) is non-empty and still has
`root` at the bottom — the root state is never popped away — and a pop on a
stack of depth 1 is absorbed as a no-op rather than raising an error. -/
theorem C2_stack_floor :
    (∀ s : List Char, ∀ st ∈ stackTrace bmax_tokens s,
      st ≠ [] ∧ st.getLast? = some "root") ∧
    (∀ s : List Char, ∀ st ∈ stackTrace bb_tokens s,
      st ≠ [] ∧ st.getLast? = some "root") ∧
    (∀ s : List Char, ∀ st ∈ stackTrace monkey_tokens s,
      st ≠ [] ∧ st.getLast? = some "root") ∧
    (∀ st : List String, st.length = 1 → applyOp StateOp.pop st = st) :=
  ⟨fun s st h => runAux_stacks bmax_tokens s _ 0 ["root"] (by simp) rfl st h,
   fun s st h => runAux_stacks bb_tokens s _ 0 ["root"] (by simp) rfl st h,
   fun s st h => runAux_stacks monkey_tokens s _ 0 ["root"] (by simp) rfl st h,
   fun st h => by
     obtain ⟨x, rfl⟩ : ∃ x, st = [x] := List.length_eq_one.mp h
     rfl⟩

/-- Witness for C2 at a concrete input: the stack visited after the opening
quote of `"a` under BlitzMax is `[string, root]` — non-empty with `root` at
the bottom — and a pop on the depth-1 stack `[root]` is a no-op. -/
theorem C2_stack_floor_witness :
    ((["string", "root"] : List String) ≠ [] ∧
      (["string", "root"] : List String).getLast? = some "root") ∧
      applyOp StateOp.pop ["root"] = ["root"] :=
  ⟨C2_stack_floor.1 ("\"a".toList) ["string", "root"] (by decide),
   C2_stack_floor.2.2.2 ["root"] rfl⟩

/-- C3: in each of the three lexers, `$1A3F` lexes to a single `Number.Hex`
token and `%101` to a single `Number.Bin` token (in particular neither is a
`Number.Integer`). -/
theorem C3_hex_bin_literals :
    tokenize bmax_tokens ("$1A3F".toList) =
      [⟨0, .numberHex, "$1A3F".toList⟩] ∧
    tokenize bb_tokens ("$1A3F".toList) =
      [⟨0, .numberHex, "$1A3F".toList⟩] ∧
    tokenize monkey_tokens ("$1A3F".toList) =
      [⟨0, .numberHex, "$1A3F".toList⟩] ∧
    tokenize bmax_tokens ("%101".toList) =
      [⟨0, .numberBin, "%101".toList⟩] ∧
    tokenize bb_tokens ("%101".toList) =
      [⟨0, .numberBin, "%101".toList⟩] ∧
    tokenize monkey_tokens ("%101".toList) =
      [⟨0, .numberBin, "%101".toList⟩] := by
  refine ⟨?_, ?_, ?_, ?_, ?_, ?_⟩ <;> decide

/-- C4 counterexample: in the Monkey table, case sensitivity is NOT uniform
across rules.  The rules of its `root` state do not all share one
case-insensitivity flag, and observably: the `(?i)`-marked builtin rule
matches `false` and `False` alike, while the unmarked `keyword_type` rule
matches `Int` but classifies lowercase `int` as a plain variable name. -/
theorem C4_counterexample :
    (¬ ∀ r1 ∈ monkey_root, ∀ r2 ∈ monkey_root, r1.ci = r2.ci) ∧
    tokenize monkey_tokens ("false".toList) =
      [⟨0, .nameBuiltin, "false".toList⟩] ∧
    tokenize monkey_tokens ("False".toList) =
      [⟨0, .nameBuiltin, "False".toList⟩] ∧
    tokenize monkey_tokens ("int".toList) =
      [⟨0, .nameVariable, "int".toList⟩] ∧
    tokenize monkey_tokens ("Int".toList) =
      [⟨0, .keywordType, "Int".toList⟩] := by
  refine ⟨?_, ?_, ?_, ?_, ?_⟩ <;> decide

/-- C4 (amended): the BlitzMax and BlitzBasic tables are case-insensitive
via a single table-wide flag (`re.IGNORECASE`; every rule of both tables is
compiled case-insensitively), but the Monkey table's global flags carry no
IGNORECASE: there, case-insensitivity is opted into per rule with inline
`(?i)` markers, and its `root` state mixes case-insensitive and
case-sensitive rules. -/
theorem C4_case_flag_amended :
    bmax_tokens.all (fun p => p.2.all (fun r => r.ci)) = true ∧
    bb_tokens.all (fun p => p.2.all (fun r => r.ci)) = true ∧
    monkey_tokens.all (fun p => p.2.all (fun r => r.ci)) = false ∧
    (monkey_root.map (fun r => r.ci)).contains true = true ∧
    (monkey_root.map (fun r => r.ci)).contains false = true := by
  refine ⟨?_, ?_, ?_, ?_, ?_⟩ <;> decide

/-- C5: under the BlitzMax table, `Rem\nhello\nEnd Rem` lexes to a single
`Comment.Multiline` token spanning the whole block. -/
theorem C5_rem_block_comment :
    tokenize bmax_tokens ("Rem\nhello\nEnd Rem".toList) =
      [⟨0, .commentMultiline, "Rem\nhello\nEnd Rem".toList⟩] := by decide

/-- C6: under the BlitzMax table, the unterminated string `"abc` lexes to
completion without any error: a `String.Double` token for the opening quote
(which pushes the `string` state) followed by a `String.Double` token for
the content `abc`, and the `string` state is never popped (the final stack
of the visited-stack trace is still `[string, root]`). -/
theorem C6_unterminated_string :
    tokenize bmax_tokens ("\"abc".toList) =
      [⟨0, .stringDouble, "\"".toList⟩, ⟨1, .stringDouble, "abc".toList⟩] ∧
    stackTrace bmax_tokens ("\"abc".toList) =
      [["root"], ["string", "root"], ["string", "root"]] := by
  constructor <;> decide

/-- C7: under the BlitzMax table, `Local x:Int = 5` lexes to the nine tokens
declaration keyword, whitespace, variable name, punctuation, type keyword,
whitespace, operator, whitespace and integer literal, each span classified
as the claim states. -/
theorem C7_local_declaration :
    tokenize bmax_tokens ("Local x:Int = 5".toList) =
      [⟨0, .keywordDeclaration, "Local".toList⟩, ⟨5, .text, " ".toList⟩,
       ⟨6, .nameVariable, "x".toList⟩, ⟨7, .punctuation, ":".toList⟩,
       ⟨8, .keywordType, "Int".toList⟩, ⟨11, .text, " ".toList⟩,
       ⟨12, .operator, "=".toList⟩, ⟨13, .text, " ".toList⟩,
       ⟨14, .numberInteger, "5".toList⟩] := by decide

/-- C8: in Monkey's `classname` state, each `<` emits a `Punctuation` token
and pushes another `classname` frame, and each `>` emits a `Punctuation`
token and pops one frame; over `List<Int>` started in `classname` the
pushes and pops balance, as the token list and the visited-stack trace
show. -/
theorem C8_generics_push_pop :
    (∀ (s : List Char) (pos : Nat) (rest : List String),
      s.get? pos = some '<' →
      step monkey_tokens s pos ("classname" :: rest) =
        ([⟨pos, .punctuation, ['<']⟩], pos + 1,
          "classname" :: "classname" :: rest)) ∧
    (∀ (s : List Char) (pos : Nat) (rest : List String), rest ≠ [] →
      s.get? pos = some '>' →
      step monkey_tokens s pos ("classname" :: rest) =
        ([⟨pos, .punctuation, ['>']⟩], pos + 1, rest)) ∧
    tokenizeFrom monkey_tokens ("List<Int>".toList) ["classname", "root"] =
      [⟨0, .nameClass, "List".toList⟩, ⟨4, .punctuation, "<".toList⟩,
       ⟨5, .keywordType, "Int".toList⟩, ⟨8, .punctuation, ">".toList⟩] ∧
    stackTraceFrom monkey_tokens ("List<Int>".toList) ["classname", "root"] =
      [["classname", "root"], ["classname", "root"],
       ["classname", "classname", "root"],
       ["classname", "classname", "root"], ["classname", "root"]] :=
  ⟨classname_step_open, classname_step_close, by decide, by decide⟩

/-- Witness for C8 at concrete inputs: a `<` (resp. `>`) at offset 0 in the
`classname` state pushes (resp. pops) one `classname` frame while emitting
one `Punctuation` token. -/
theorem C8_generics_push_pop_witness :
    step monkey_tokens ['<'] 0 ["classname", "root"] =
      ([⟨0, .punctuation, ['<']⟩], 1, ["classname", "classname", "root"]) ∧
    step monkey_tokens ['>'] 0 ["classname", "root"] =
      ([⟨0, .punctuation, ['>']⟩], 1, ["root"]) :=
  ⟨C8_generics_push_pop.1 ['<'] 0 ["root"] rfl,
   C8_generics_push_pop.2.1 ['>'] 0 ["root"] (by decide) rfl⟩

/-- C9: the `default('#pop')` pseudo-rule is the last entry of Monkey's
`classname` and `variables` states (a zero-width `eps` pattern with no
action), and whenever no earlier rule of the state matches at the current
offset, the step emits no token, consumes nothing, and pops the state, so
matching resumes at the same offset in the newly exposed state. -/
theorem C9_default_pseudo_rule :
    monkey_classname.getLast? = some ⟨Regex.eps, false, none, StateOp.pop⟩ ∧
    monkey_variables.getLast? = some ⟨Regex.eps, false, none, StateOp.pop⟩ ∧
    (∀ (s : List Char) (pos : Nat) (rest : List String),
      (∀ r ∈ monkey_classname.dropLast, ruleMatch s r pos = none) →
      step monkey_tokens s pos ("classname" :: rest) =
        ([], pos, applyOp StateOp.pop ("classname" :: rest))) ∧
    (∀ (s : List Char) (pos : Nat) (rest : List String),
      (∀ r ∈ monkey_variables.dropLast, ruleMatch s r pos = none) →
      step monkey_tokens s pos ("variables" :: rest) =
        ([], pos, applyOp StateOp.pop ("variables" :: rest))) :=
  ⟨rfl, rfl, classname_default_step, variables_default_step⟩

/-- Witness for C9 at a concrete input: on `+` (which no non-default rule of
either state matches), the `classname` and `variables` states each pop with
no token emitted and the offset unchanged. -/
theorem C9_default_pseudo_rule_witness :
    step monkey_tokens ['+'] 0 ["classname", "root"] = ([], 0, ["root"]) ∧
    step monkey_tokens ['+'] 0 ["variables", "root"] = ([], 0, ["root"]) :=
  ⟨C9_default_pseudo_rule.2.2.1 ['+'] 0 ["root"] (by decide),
   C9_default_pseudo_rule.2.2.2 ['+'] 0 ["root"] (by decide)⟩

/-- C10: in Monkey, `$` followed by any non-empty run of characters from
`[0-9a-fA-Z]` lexes to a single `Number.Hex` token — even for uppercase
letters beyond `F`, e.g. `$XYZ` — whereas BlitzMax and BlitzBasic accept
only `[0-9a-f]` case-insensitively after `$`: on `$XYZ` they emit an error
token for the `$` and a variable-name token for `XYZ`, while `$AB` / `$ab`
do lex as hex there. -/
theorem C10_monkey_hex_class :
    (∀ t : List Char, t ≠ [] → (∀ c ∈ t, monkey_hex_digit c = true) →
      tokenize monkey_tokens ('$' :: t) = [⟨0, .numberHex, '$' :: t⟩]) ∧
    tokenize monkey_tokens ("$XYZ".toList) =
      [⟨0, .numberHex, "$XYZ".toList⟩] ∧
    tokenize bmax_tokens ("$XYZ".toList) =
      [⟨0, .error, "$".toList⟩, ⟨1, .nameVariable, "XYZ".toList⟩] ∧
    tokenize bb_tokens ("$XYZ".toList) =
      [⟨0, .error, "$".toList⟩, ⟨1, .nameVariable, "XYZ".toList⟩] ∧
    tokenize bmax_tokens ("$AB".toList) = [⟨0, .numberHex, "$AB".toList⟩] ∧
    tokenize bb_tokens ("$ab".toList) = [⟨0, .numberHex, "$ab".toList⟩] :=
  ⟨monkey_hex_run, by decide, by decide, by decide, by decide, by decide⟩

/-- Witness for C10 at a concrete input: `$XYZ` through the general part of
the theorem. -/
theorem C10_monkey_hex_class_witness :
    tokenize monkey_tokens ('$' :: "XYZ".toList) =
      [⟨0, .numberHex, '$' :: "XYZ".toList⟩] :=
  C10_monkey_hex_class.1 ("XYZ".toList) (by decide) (by decide)
